import Mathlib

set_option linter.unusedSectionVars false

/-!
# Verification of the user-operation mempool queue (`pkg/mempool/queue.go`)

A shallow embedding of `userOpQueues` and of the operations `AddOp`, `GetOps`,
`Next`, `All` and `RemoveOps`, together with theorems about them.

The queue keeps, per entry point, three `sortedset.SortedSet`s from the library
`github.com/wangjia184/sortedset`, a dependency of the repository: a skip list
ordered by ascending score, ties broken by ascending key, with a dictionary
from key to node.  A skip list is a search structure over one sorted linked
list; the embedding keeps that level-0 list (`SortedSet κ`, a list of nodes in
skip-list order), reads the dictionary off it (`SortedSet.find`), and follows
the library's methods `insertNode`, `delete`, `AddOrUpdate`, `Remove`,
`GetCount` and `GetByRankRange` on that list.

Conventions of the embedding:
* `common.Address` is `Nat`; `*big.Int` is `Int`; Go `int`/`int64` are `Int`
  with explicit wrap-around where a conversion can overflow (`BigInt.Int64`);
  `uint64` is `Nat` modulo `2 ^ 64`.
* `getUniqueKey` is not part of `queue.go`; every definition takes it as a
  parameter with values in a linearly ordered key type `κ` (Go compares the
  keys as strings).
* Go mutates the structures through pointers; here every operation returns the
  new queue, and a query returns the new queue together with its batch.
* Calls are sequential: the embedding says nothing about interleavings.
-/

namespace Mempool

/-- The type `common.Address`. -/
abbrev Address := Nat

/-- Modelled from the spec: the struct `userop.UserOperation`, declared outside `queue.go`.
It has the fields that `queue.go` reads (`Sender`, `Nonce`, `MaxPriorityFeePerGas`) and one
field `CallData` standing for the fields that the queue never reads. -/
structure UserOperation where
  Sender : Address
  Nonce : Int
  MaxPriorityFeePerGas : Int
  CallData : Nat
  deriving DecidableEq, Repr

/-- The constant `defaultMaxBatchSize`. -/
def defaultMaxBatchSize : Int := 10

/-- Go's `(*big.Int).Int64`: the low 64 bits of the absolute value read as a two's
complement `int64`, negated (with wrap-around) when the number is negative. -/
def BigInt.Int64 (x : Int) : Int :=
  let low : Int := ((x.natAbs % 2 ^ 64 : Nat) : Int)
  let v : Int := if low < 2 ^ 63 then low else low - 2 ^ 64
  if x < 0 then (if v = -(2 ^ 63) then v else -v) else v

/-- The type `sortedset.SortedSetNode`: key, score and value of one element. -/
structure SortedSetNode (κ : Type) where
  key : κ
  score : Int
  Value : UserOperation

/-- The type `sortedset.SortedSet`: the nodes in skip-list order (level 0, header excluded). -/
abbrev SortedSet (κ : Type) := List (SortedSetNode κ)

section SortedSetOps

variable {κ : Type} [LinearOrder κ]

/-- The skip-list order test of `insertNode` and `delete`: node `x` stands before the
position of `(score, key)`. -/
def SortedSetNode.before (x : SortedSetNode κ) (score : Int) (key : κ) : Prop :=
  x.score < score ∨ (x.score = score ∧ x.key < key)

instance (x : SortedSetNode κ) (score : Int) (key : κ) : Decidable (x.before score key) := by
  unfold SortedSetNode.before; exact inferInstance

/-- The constructor `sortedset.New`. -/
def SortedSet.New : SortedSet κ := []

/-- The method `SortedSet.GetCount`. -/
def SortedSet.GetCount (this : SortedSet κ) : Int := (this.length : Int)

/-- The dictionary lookup `this.dict[key]`. -/
def SortedSet.find (this : SortedSet κ) (key : κ) : Option (SortedSetNode κ) :=
  match this with
  | [] => none
  | x :: xs => if x.key = key then some x else SortedSet.find xs key

/-- The method `SortedSet.insertNode`: walk past every node that stands before
`(score, key)` and link the new node there. -/
def SortedSet.insertNode (this : SortedSet κ) (score : Int) (key : κ) (value : UserOperation) :
    SortedSet κ :=
  match this with
  | [] => [⟨key, score, value⟩]
  | x :: xs =>
    if x.before score key then x :: SortedSet.insertNode xs score key value
    else ⟨key, score, value⟩ :: x :: xs

/-- The method `SortedSet.delete`: walk past every node that stands before `(score, key)`
and unlink the next node when it carries that score and key. -/
def SortedSet.delete (this : SortedSet κ) (score : Int) (key : κ) : SortedSet κ :=
  match this with
  | [] => []
  | x :: xs =>
    if x.before score key then x :: SortedSet.delete xs score key
    else if score = x.score ∧ x.key = key then xs
    else x :: xs

/-- The assignment `found.Value = value` on the node the dictionary holds for `key`. -/
def SortedSet.setValue (this : SortedSet κ) (key : κ) (value : UserOperation) : SortedSet κ :=
  match this with
  | [] => []
  | x :: xs =>
    if x.key = key then { x with Value := value } :: xs
    else x :: SortedSet.setValue xs key value

/-- The method `SortedSet.AddOrUpdate`. -/
def SortedSet.AddOrUpdate (this : SortedSet κ) (key : κ) (score : Int) (value : UserOperation) :
    SortedSet κ :=
  match SortedSet.find this key with
  | some found =>
    if found.score = score then SortedSet.setValue this key value
    else SortedSet.insertNode (SortedSet.delete this found.score found.key) score key value
  | none => SortedSet.insertNode this score key value

/-- The method `SortedSet.Remove`. -/
def SortedSet.Remove (this : SortedSet κ) (key : κ) : SortedSet κ :=
  match SortedSet.find this key with
  | some found => SortedSet.delete this found.score found.key
  | none => this

/-- The method `SortedSet.GetByRankRange` with `remove = false`: ranks are 1-based, a
negative rank counts from the end, and the result is reversed when `start > end`. -/
def SortedSet.GetByRankRange (this : SortedSet κ) (start stop : Int) : List (SortedSetNode κ) :=
  let length : Int := (this.length : Int)
  let start := if start < 0 then length + start + 1 else start
  let stop := if stop < 0 then length + stop + 1 else stop
  let start := if start ≤ 0 then 1 else start
  let stop := if stop ≤ 0 then 1 else stop
  let reverse := decide (start > stop)
  let lo := if reverse then stop else start
  let hi := if reverse then start else stop
  let nodes := (this.drop (lo.toNat - 1)).take (hi.toNat + 1 - lo.toNat)
  if reverse then nodes.reverse else nodes

end SortedSetOps

/-- The struct `set`: the three orderings of one entry point. -/
structure set (κ : Type) where
  all : SortedSet κ
  arrival : SortedSet κ
  senders : Address → Option (SortedSet κ)

/-- The struct `userOpQueues`. -/
structure userOpQueues (κ : Type) where
  maxBatchSize : Int
  opCount : Nat
  setsByEntryPoint : Address → Option (set κ)

/-- A map store `m[k] = v`. -/
def store {β : Type} (m : Address → Option β) (k : Address) (v : β) : Address → Option β :=
  fun a => if a = k then some v else m a

section Queue

variable {κ : Type} [LinearOrder κ]

/-- The method `set.getSenderSortedSet`: the sender's sorted set, created when missing. -/
def set.getSenderSortedSet (s : set κ) (sender : Address) : set κ × SortedSet κ :=
  match s.senders sender with
  | some sss => (s, sss)
  | none => ({ s with senders := store s.senders sender SortedSet.New }, SortedSet.New)

/-- The method `userOpQueues.getEntryPointSet`: the entry point's set, created when missing. -/
def userOpQueues.getEntryPointSet (q : userOpQueues κ) (entryPoint : Address) :
    userOpQueues κ × set κ :=
  match q.setsByEntryPoint entryPoint with
  | some val => (q, val)
  | none =>
    let val : set κ := { all := SortedSet.New, arrival := SortedSet.New, senders := fun _ => none }
    ({ q with setsByEntryPoint := store q.setsByEntryPoint entryPoint val }, val)

/-- The body of `AddOp` on the entry point's set. -/
def set.addOp (getUniqueKey : Address → Address → Int → κ) (eps : set κ) (entryPoint : Address)
    (op : UserOperation) : set κ :=
  let (eps, sss) := eps.getSenderSortedSet op.Sender
  let key := getUniqueKey entryPoint op.Sender op.Nonce
  let all := SortedSet.AddOrUpdate eps.all key (BigInt.Int64 op.MaxPriorityFeePerGas) op
  let arrival := SortedSet.AddOrUpdate eps.arrival key (SortedSet.GetCount all) op
  let sss := SortedSet.AddOrUpdate sss key (BigInt.Int64 op.Nonce) op
  { all := all, arrival := arrival, senders := store eps.senders op.Sender sss }

/-- The method `userOpQueues.AddOp`. -/
def userOpQueues.AddOp (getUniqueKey : Address → Address → Int → κ) (q : userOpQueues κ)
    (entryPoint : Address) (op : UserOperation) : userOpQueues κ :=
  let (q, eps) := q.getEntryPointSet entryPoint
  let eps := eps.addOp getUniqueKey entryPoint op
  { q with
    opCount := (q.opCount + 1) % 2 ^ 64
    setsByEntryPoint := store q.setsByEntryPoint entryPoint eps }

/-- The values of a list of nodes: the loop `batch = append(batch, n.Value)`. -/
def values (nodes : List (SortedSetNode κ)) : List UserOperation :=
  nodes.map (fun n => n.Value)

/-- The method `userOpQueues.GetOps`. -/
def userOpQueues.GetOps (q : userOpQueues κ) (entryPoint sender : Address) :
    userOpQueues κ × List UserOperation :=
  let (q, eps) := q.getEntryPointSet entryPoint
  let (eps, sss) := eps.getSenderSortedSet sender
  let nodes := SortedSet.GetByRankRange sss (-1) (-(SortedSet.GetCount sss))
  ({ q with setsByEntryPoint := store q.setsByEntryPoint entryPoint eps }, values nodes)

/-- One step of the inner loop of `Next`: swap `batch[i]` and `batch[j]` when they have
the same sender and `batch[i].Nonce > batch[j].Nonce`. -/
def swapStep (batch : List UserOperation) (i j : Nat) : List UserOperation :=
  match batch[i]?, batch[j]? with
  | some a, some b =>
    if a.Sender = b.Sender ∧ a.Nonce > b.Nonce then (batch.set i b).set j a else batch
  | _, _ => batch

/-- The inner loop of `Next`: `for j := i + 1; j < len(batch); j++`. -/
def innerLoop (batch : List UserOperation) (i : Nat) : List UserOperation :=
  (List.range' (i + 1) (batch.length - (i + 1))).foldl (fun b j => swapStep b i j) batch

/-- The outer loop of `Next`: `for i := 0; i < len(batch); i++`. -/
def nonceLoop (batch : List UserOperation) : List UserOperation :=
  (List.range batch.length).foldl (fun b i => innerLoop b i) batch

/-- The method `userOpQueues.Next`. -/
def userOpQueues.Next (q : userOpQueues κ) (entryPoint : Address) :
    userOpQueues κ × List UserOperation :=
  let (q, eps) := q.getEntryPointSet entryPoint
  let nodes := SortedSet.GetByRankRange eps.all (-1) (-defaultMaxBatchSize)
  (q, nonceLoop (values nodes))

/-- The method `userOpQueues.All`. -/
def userOpQueues.All (q : userOpQueues κ) (entryPoint : Address) :
    userOpQueues κ × List UserOperation :=
  let (q, eps) := q.getEntryPointSet entryPoint
  let nodes := SortedSet.GetByRankRange eps.arrival 1 defaultMaxBatchSize
  (q, values nodes)

/-- The loop body of `RemoveOps` on the entry point's set, for one operation. -/
def set.removeOp (getUniqueKey : Address → Address → Int → κ) (eps : set κ) (entryPoint : Address)
    (op : UserOperation) : set κ :=
  let (eps, sss) := eps.getSenderSortedSet op.Sender
  let key := getUniqueKey entryPoint op.Sender op.Nonce
  { all := SortedSet.Remove eps.all key
    arrival := SortedSet.Remove eps.arrival key
    senders := store eps.senders op.Sender (SortedSet.Remove sss key) }

/-- The method `userOpQueues.RemoveOps`. -/
def userOpQueues.RemoveOps (getUniqueKey : Address → Address → Int → κ) (q : userOpQueues κ)
    (entryPoint : Address) (ops : List UserOperation) : userOpQueues κ :=
  let (q, eps) := q.getEntryPointSet entryPoint
  let eps := ops.foldl (fun eps op => eps.removeOp getUniqueKey entryPoint op) eps
  { q with
    opCount := (q.opCount + (2 ^ 64 - 1)) % 2 ^ 64
    setsByEntryPoint := store q.setsByEntryPoint entryPoint eps }

/-- The constructor `newUserOpQueue`. -/
def newUserOpQueue : userOpQueues κ :=
  { maxBatchSize := defaultMaxBatchSize, opCount := 0, setsByEntryPoint := fun _ => none }

end Queue

/-! ## Call sequences -/

/-- One call of a public method of the queue. -/
inductive Call where
  | addOp (entryPoint : Address) (op : UserOperation)
  | removeOps (entryPoint : Address) (ops : List UserOperation)
  | getOps (entryPoint sender : Address)
  | next (entryPoint : Address)
  | all (entryPoint : Address)

section Run

variable {κ : Type} [LinearOrder κ]

/-- The queue after one call. -/
def step (getUniqueKey : Address → Address → Int → κ) (q : userOpQueues κ) :
    Call → userOpQueues κ
  | .addOp e op => q.AddOp getUniqueKey e op
  | .removeOps e ops => q.RemoveOps getUniqueKey e ops
  | .getOps e s => (q.GetOps e s).1
  | .next e => (q.Next e).1
  | .all e => (q.All e).1

/-- The queue after a sequence of calls on a new queue. -/
def run (getUniqueKey : Address → Address → Int → κ) (calls : List Call) : userOpQueues κ :=
  calls.foldl (step getUniqueKey) newUserOpQueue

/-- A pool state: a queue produced from `newUserOpQueue` by a sequence of calls. -/
def Reachable (getUniqueKey : Address → Address → Int → κ) (q : userOpQueues κ) : Prop :=
  ∃ calls : List Call, q = run getUniqueKey calls

/-- The key derivation is injective on `(entryPoint, sender, nonce)`. -/
def KeyInjective (getUniqueKey : Address → Address → Int → κ) : Prop :=
  ∀ e s n e' s' n', getUniqueKey e s n = getUniqueKey e' s' n' → e = e' ∧ s = s' ∧ n = n'

/-- The order of a sorted set: every node stands before every later node. -/
def SortedSet.Ordered (l : SortedSet κ) : Prop :=
  l.Pairwise (fun a b => a.before b.score b.key)

/-- The keys of a sorted set, in list order. -/
def SortedSet.keys (l : SortedSet κ) : List κ := l.map (fun n => n.key)

/-- A well-formed sorted set: in skip-list order, and no key twice. -/
def SortedSet.WF (l : SortedSet κ) : Prop := SortedSet.Ordered l ∧ (SortedSet.keys l).Nodup

end Run

/-! ## Views and invariants -/

section Views
variable {κ : Type} [LinearOrder κ]

/-- The sender's sorted set as a query reads it: empty when the map has none. -/
def set.sendersOf (s : set κ) (sender : Address) : SortedSet κ := (s.senders sender).getD []

/-- The entry point's set as a query reads it: empty when the map has none. -/
def userOpQueues.setOf (q : userOpQueues κ) (entryPoint : Address) : set κ :=
  (q.getEntryPointSet entryPoint).2

/-- Two sets that every query reads alike. -/
def set.SameView (s t : set κ) : Prop :=
  s.all = t.all ∧ s.arrival = t.arrival ∧ ∀ a, s.sendersOf a = t.sendersOf a

/-- Every node of `l` has a node of `t` with the same key and the same operation. -/
def SortedSet.Sub (l t : SortedSet κ) : Prop :=
  ∀ m ∈ l, ∃ n ∈ t, n.key = m.key ∧ n.Value = m.Value

/-- The invariant of the set of entry point `e`: the three orderings are well-formed sorted
sets, every node is stored under the key of its operation, with the score `AddOp` gave it,
a sender's set holds operations of that sender only, and the by-priority and by-arrival
orderings hold the same keys with the same operations. -/
structure set.WF (getUniqueKey : Address → Address → Int → κ) (e : Address) (s : set κ) :
    Prop where
  all_wf : SortedSet.WF s.all
  arrival_wf : SortedSet.WF s.arrival
  senders_wf : ∀ a, SortedSet.WF (s.sendersOf a)
  all_key : ∀ n ∈ s.all, n.key = getUniqueKey e n.Value.Sender n.Value.Nonce
  all_score : ∀ n ∈ s.all, n.score = BigInt.Int64 n.Value.MaxPriorityFeePerGas
  arrival_key : ∀ n ∈ s.arrival, n.key = getUniqueKey e n.Value.Sender n.Value.Nonce
  senders_key : ∀ a, ∀ n ∈ s.sendersOf a, n.key = getUniqueKey e a n.Value.Nonce
  senders_sender : ∀ a, ∀ n ∈ s.sendersOf a, n.Value.Sender = a
  senders_score : ∀ a, ∀ n ∈ s.sendersOf a, n.score = BigInt.Int64 n.Value.Nonce
  all_sub_arrival : SortedSet.Sub s.all s.arrival
  arrival_sub_all : SortedSet.Sub s.arrival s.all

/-- The by-priority ordering and the per-sender orderings hold the same keys with the same
operations. -/
structure set.Consistent (s : set κ) : Prop where
  senders_sub_all : ∀ a, SortedSet.Sub (s.sendersOf a) s.all
  all_sub_senders : ∀ m ∈ s.all, ∃ n ∈ s.sendersOf m.Value.Sender,
    n.key = m.key ∧ n.Value = m.Value

/-- The operations stored under an entry point: the values of its by-priority ordering. -/
def userOpQueues.stored (q : userOpQueues κ) (entryPoint : Address) : List UserOperation :=
  values (q.setOf entryPoint).all

/-- The integer fits in a signed 64-bit integer. -/
def FitsInt64 (x : Int) : Prop := -(2 ^ 63) ≤ x ∧ x < 2 ^ 63

/-- The invariant of the queue: the set of every entry point is well-formed. -/
def userOpQueues.Inv (getUniqueKey : Address → Address → Int → κ) (q : userOpQueues κ) : Prop :=
  ∀ e, set.WF getUniqueKey e (q.setOf e)

end Views

/-! ## Invariants of the nonce loop of `Next` -/

/-- Positions below `i` are final: no later operation of the same sender has a smaller nonce. -/
def DoneUpTo (b : List UserOperation) (i : Nat) : Prop :=
  ∀ p q x y, p < i → p < q → b[p]? = some x → b[q]? = some y →
    x.Sender = y.Sender → x.Nonce ≤ y.Nonce

/-- The invariant of the inner loop of `Next` at `(i, j)`. -/
def InnerInv (b : List UserOperation) (i j : Nat) : Prop :=
  DoneUpTo b i ∧ ∀ q x y, i < q → q < j → b[i]? = some x → b[q]? = some y →
    x.Sender = y.Sender → x.Nonce ≤ y.Nonce

/-! ## Auxiliary definitions of the proofs -/

/-- The by-arrival nodes of the operations `ops`, added in that order with new keys to a set
that held `m` operations: the `i`-th of them gets the score `m + i`. -/
def arrivalNodes {κ : Type} (getUniqueKey : Address → Address → Int → κ) (e : Address) :
    List UserOperation → Nat → SortedSet κ
  | [], _ => []
  | o :: os, m =>
    ⟨getUniqueKey e o.Sender o.Nonce, (m : Int) + 1, o⟩ :: arrivalNodes getUniqueKey e os (m + 1)

/-- The operation occurs in one of the three orderings of the set. -/
def set.Holds {κ : Type} (s : set κ) (o : UserOperation) : Prop :=
  o ∈ values s.all ∨ o ∈ values s.arrival ∨ ∃ a, o ∈ values (s.sendersOf a)

/-- The number of `AddOp` calls in a sequence of calls. -/
def countAddOp : List Call → Nat
  | [] => 0
  | Call.addOp _ _ :: cs => countAddOp cs + 1
  | _ :: cs => countAddOp cs

/-- The number of `RemoveOps` calls in a sequence of calls. -/
def countRemoveOps : List Call → Nat
  | [] => 0
  | Call.removeOps _ _ :: cs => countRemoveOps cs + 1
  | _ :: cs => countRemoveOps cs

/-- Operation `a` stands at an earlier position of the batch than operation `b`. -/
def Precedes (batch : List UserOperation) (a b : UserOperation) : Prop :=
  ∃ i j : Nat, i < j ∧ batch[i]? = some a ∧ batch[j]? = some b

/-- The batch of `Next` before the nonce correction: the values of the up to 10 nodes of
highest score of the by-priority ordering, highest first. -/
def userOpQueues.topByFee {κ : Type} [LinearOrder κ] (q : userOpQueues κ)
    (entryPoint : Address) : List UserOperation :=
  values (SortedSet.GetByRankRange (q.setOf entryPoint).all (-1) (-defaultMaxBatchSize))

/-- Two queues that every query reads alike and that have the same count. -/
def userOpQueues.SameView {κ : Type} [LinearOrder κ] (q q' : userOpQueues κ) : Prop :=
  q.opCount = q'.opCount ∧ ∀ e, set.SameView (q.setOf e) (q'.setOf e)

/-- The sender of the operation at position `p` occurs at no other position of the batch. -/
def SenderOnlyAt (b : List UserOperation) (p : Nat) (s : Address) : Prop :=
  ∀ (q : Nat) (y : UserOperation), b[q]? = some y → y.Sender = s → q = p

/-! ## Example data -/

/-- A key derivation for the examples: the list `[entryPoint, sender, nonce]`, compared
lexicographically. -/
def exampleKey : Address → Address → Int → List Int :=
  fun e s n => [(e : Int), (s : Int), n]

/-- Operation A of the examples: sender 7, nonce 1, fee 5. -/
def opA : UserOperation := ⟨7, 1, 5, 0⟩

/-- Operation B of the examples: sender 7, nonce 2, fee 9. -/
def opB : UserOperation := ⟨7, 2, 9, 0⟩

/-- Operation C of the examples: sender 8, nonce 1, fee 7. -/
def opC : UserOperation := ⟨8, 1, 7, 0⟩

/-- Operation D of the examples: sender 9, nonce 1, fee 3. -/
def opD : UserOperation := ⟨9, 1, 3, 0⟩

/-- The new queue of the examples. -/
def q0 : userOpQueues (List Int) := newUserOpQueue

/-- An operation of sender 7 with nonce 1 and the fee `2 ^ 63 = 9223372036854775808`, one
more than the largest signed 64-bit integer. -/
def opBigFee : UserOperation := ⟨7, 1, 9223372036854775808, 0⟩

/-- An operation of sender 7 with the nonce `2 ^ 63 = 9223372036854775808` and fee 1. -/
def opBigNonce : UserOperation := ⟨7, 9223372036854775808, 1, 0⟩

/-- An operation of sender 7 with nonce 5 and fee 10. -/
def opHi : UserOperation := ⟨7, 5, 10, 0⟩

/-- An operation of sender 8 with nonce 1 and fee 5. -/
def opMid : UserOperation := ⟨8, 1, 5, 0⟩

/-- An operation of sender 7 with nonce 1 and fee 1. -/
def opLo : UserOperation := ⟨7, 1, 1, 0⟩

/-! ## Lemmas on sorted sets -/

section SortedSetLemmas
variable {κ : Type} [LinearOrder κ]

theorem before_irrefl (x : SortedSetNode κ) : ¬ x.before x.score x.key := by
  simp [SortedSetNode.before]

theorem before_trans {x y : SortedSetNode κ} {s : Int} {k : κ}
    (h1 : x.before y.score y.key) (h2 : y.before s k) : x.before s k := by
  unfold SortedSetNode.before at *
  rcases h1 with h1 | ⟨h1, h1'⟩ <;> rcases h2 with h2 | ⟨h2, h2'⟩
  · left; omega
  · left; omega
  · left; omega
  · right; exact ⟨by omega, lt_trans h1' h2'⟩

theorem before_of_not_before {x : SortedSetNode κ} {s : Int} {k : κ} (v : UserOperation)
    (h : ¬ x.before s k) (hk : x.key ≠ k) : (⟨k, s, v⟩ : SortedSetNode κ).before x.score x.key := by
  unfold SortedSetNode.before at *
  simp only [not_or, not_and, not_lt] at h
  rcases lt_or_eq_of_le h.1 with h1 | h1
  · left; exact h1
  · right; exact ⟨h1, lt_of_le_of_ne (h.2 h1.symm) (Ne.symm hk)⟩

theorem find_eq_none {l : SortedSet κ} {k : κ} :
    SortedSet.find l k = none ↔ ∀ n ∈ l, n.key ≠ k := by
  induction l with
  | nil => simp [SortedSet.find]
  | cons x xs ih =>
    by_cases h : x.key = k <;> simp [SortedSet.find, h, ih]

theorem find_eq_some {l : SortedSet κ} {k : κ} {n : SortedSetNode κ}
    (h : SortedSet.find l k = some n) : n ∈ l ∧ n.key = k := by
  induction l with
  | nil => simp [SortedSet.find] at h
  | cons x xs ih =>
    by_cases hx : x.key = k
    · simp [SortedSet.find, hx] at h; subst h; simp [hx]
    · simp [SortedSet.find, hx] at h; have := ih h; simp [this]

theorem find_of_mem {l : SortedSet κ} {n : SortedSetNode κ}
    (hnd : (SortedSet.keys l).Nodup) (h : n ∈ l) : SortedSet.find l n.key = some n := by
  induction l with
  | nil => simp at h
  | cons x xs ih =>
    simp only [SortedSet.keys, List.map_cons, List.nodup_cons, List.mem_map, not_exists,
      not_and] at hnd
    rcases List.mem_cons.1 h with h | h
    · subst h; simp [SortedSet.find]
    · have hx : x.key ≠ n.key := fun e => hnd.1 n h e.symm
      simp [SortedSet.find, hx]; exact ih hnd.2 h

theorem mem_insertNode {l : SortedSet κ} {s : Int} {k : κ} {v : UserOperation}
    {x : SortedSetNode κ} :
    x ∈ SortedSet.insertNode l s k v ↔ x = ⟨k, s, v⟩ ∨ x ∈ l := by
  induction l with
  | nil => simp [SortedSet.insertNode]
  | cons y ys ih =>
    by_cases h : y.before s k
    · simp [SortedSet.insertNode, h, ih]; tauto
    · simp [SortedSet.insertNode, h]

theorem length_insertNode (l : SortedSet κ) (s : Int) (k : κ) (v : UserOperation) :
    (SortedSet.insertNode l s k v).length = l.length + 1 := by
  induction l with
  | nil => simp [SortedSet.insertNode]
  | cons y ys ih =>
    by_cases h : y.before s k <;> simp [SortedSet.insertNode, h, ih]

theorem ordered_insertNode {l : SortedSet κ} {s : Int} {k : κ} (v : UserOperation)
    (ho : SortedSet.Ordered l) (hk : ∀ n ∈ l, n.key ≠ k) :
    SortedSet.Ordered (SortedSet.insertNode l s k v) := by
  induction l with
  | nil => simp [SortedSet.insertNode, SortedSet.Ordered]
  | cons y ys ih =>
    unfold SortedSet.Ordered at ho ih ⊢
    rw [List.pairwise_cons] at ho
    by_cases h : y.before s k
    · simp only [SortedSet.insertNode, h, if_true, List.pairwise_cons]
      refine ⟨fun z hz => ?_, ih ho.2 (fun n hn => hk n (List.mem_cons_of_mem _ hn))⟩
      rcases mem_insertNode.1 hz with hz | hz
      · subst hz; exact h
      · exact ho.1 z hz
    · simp only [SortedSet.insertNode, h, if_false, List.pairwise_cons]
      have hy := before_of_not_before v h (hk y (List.mem_cons_self _ _))
      refine ⟨fun z hz => ?_, ho⟩
      rcases List.mem_cons.1 hz with hz | hz
      · subst hz; exact hy
      · exact before_trans hy (ho.1 z hz)

theorem insertNode_append {l : SortedSet κ} {s : Int} {k : κ} (v : UserOperation)
    (h : ∀ n ∈ l, n.before s k) : SortedSet.insertNode l s k v = l ++ [⟨k, s, v⟩] := by
  induction l with
  | nil => simp [SortedSet.insertNode]
  | cons y ys ih =>
    have hy := h y (List.mem_cons_self _ _)
    simp [SortedSet.insertNode, hy, ih (fun n hn => h n (List.mem_cons_of_mem _ hn))]

theorem delete_eq_filter {l : SortedSet κ} {n : SortedSetNode κ} (hw : SortedSet.WF l)
    (hn : n ∈ l) :
    SortedSet.delete l n.score n.key = l.filter (fun x => decide (x.key ≠ n.key)) := by
  induction l with
  | nil => simp at hn
  | cons y ys ih =>
    obtain ⟨ho, hnd⟩ := hw
    unfold SortedSet.Ordered at ho
    rw [List.pairwise_cons] at ho
    simp only [SortedSet.keys, List.map_cons, List.nodup_cons, List.mem_map, not_exists,
      not_and] at hnd
    by_cases h : y.before n.score n.key
    · have hne : n ≠ y := fun e => before_irrefl n (e ▸ h)
      have hys : n ∈ ys := by
        rcases List.mem_cons.1 hn with e | e
        · exact absurd e hne
        · exact e
      have hk : y.key ≠ n.key := fun e => hnd.1 n hys e.symm
      simp only [SortedSet.delete, h, if_true]
      rw [List.filter_cons_of_pos (by simpa using hk), ih ⟨ho.2, hnd.2⟩ hys]
    · simp only [SortedSet.delete, h, if_false]
      have hny : n = y := by
        rcases List.mem_cons.1 hn with e | e
        · exact e
        · exact absurd (ho.1 n e) h
      subst hny
      simp only [and_self, if_true]
      rw [List.filter_cons_of_neg (by simp)]
      symm
      rw [List.filter_eq_self]
      intro a ha
      simpa using hnd.1 a ha

theorem wf_filter {l : SortedSet κ} (hw : SortedSet.WF l) (p : SortedSetNode κ → Bool) :
    SortedSet.WF (l.filter p) := by
  refine ⟨List.Pairwise.sublist (List.filter_sublist l) hw.1, ?_⟩
  exact List.Nodup.sublist (List.Sublist.map _ (List.filter_sublist l)) hw.2

theorem remove_eq_filter {l : SortedSet κ} (hw : SortedSet.WF l) (k : κ) :
    SortedSet.Remove l k = l.filter (fun x => decide (x.key ≠ k)) := by
  unfold SortedSet.Remove
  cases hf : SortedSet.find l k with
  | none =>
    simp only
    symm
    rw [List.filter_eq_self]
    intro a ha
    simpa using find_eq_none.1 hf a ha
  | some found =>
    obtain ⟨hm, hk⟩ := find_eq_some hf
    simp only
    rw [delete_eq_filter hw hm, hk]

theorem wf_remove {l : SortedSet κ} (hw : SortedSet.WF l) (k : κ) :
    SortedSet.WF (SortedSet.Remove l k) := by
  rw [remove_eq_filter hw]; exact wf_filter hw _

theorem mem_remove {l : SortedSet κ} (hw : SortedSet.WF l) {k : κ} {x : SortedSetNode κ} :
    x ∈ SortedSet.Remove l k ↔ x ∈ l ∧ x.key ≠ k := by
  rw [remove_eq_filter hw]; simp

end SortedSetLemmas

section SortedSetLemmas2
variable {κ : Type} [LinearOrder κ]

theorem perm_insertNode (l : SortedSet κ) (s : Int) (k : κ) (v : UserOperation) :
    (SortedSet.insertNode l s k v).Perm (⟨k, s, v⟩ :: l) := by
  induction l with
  | nil => simp [SortedSet.insertNode]
  | cons y ys ih =>
    by_cases h : y.before s k
    · simp only [SortedSet.insertNode, h, if_true]
      exact (List.Perm.cons y ih).trans (List.Perm.swap _ _ _)
    · simp [SortedSet.insertNode, h]

theorem wf_insertNode {l : SortedSet κ} {s : Int} {k : κ} (v : UserOperation)
    (hw : SortedSet.WF l) (hk : ∀ n ∈ l, n.key ≠ k) :
    SortedSet.WF (SortedSet.insertNode l s k v) := by
  refine ⟨ordered_insertNode v hw.1 hk, ?_⟩
  have hp := (perm_insertNode l s k v).map (fun n => n.key)
  unfold SortedSet.keys
  rw [hp.nodup_iff]
  simp only [List.map_cons, List.nodup_cons, List.mem_map, not_exists, not_and]
  exact ⟨fun n hn => hk n hn, hw.2⟩

theorem length_setValue (l : SortedSet κ) (k : κ) (v : UserOperation) :
    (SortedSet.setValue l k v).length = l.length := by
  induction l with
  | nil => simp [SortedSet.setValue]
  | cons y ys ih => by_cases h : y.key = k <;> simp [SortedSet.setValue, h, ih]

theorem mem_setValue {l : SortedSet κ} {k : κ} {v : UserOperation} {found : SortedSetNode κ}
    (hnd : (SortedSet.keys l).Nodup) (hf : SortedSet.find l k = some found)
    {x : SortedSetNode κ} :
    x ∈ SortedSet.setValue l k v ↔ x = ⟨k, found.score, v⟩ ∨ (x ∈ l ∧ x.key ≠ k) := by
  induction l with
  | nil => simp [SortedSet.find] at hf
  | cons y ys ih =>
    simp only [SortedSet.keys, List.map_cons, List.nodup_cons, List.mem_map, not_exists,
      not_and] at hnd
    by_cases h : y.key = k
    · simp only [SortedSet.find, h, if_true, Option.some.injEq] at hf
      subst hf
      simp only [SortedSet.setValue, h, if_true, List.mem_cons]
      constructor
      · rintro (e | e)
        · left; rw [e]
        · right; exact ⟨Or.inr e, fun e' => hnd.1 x e (e'.trans h.symm)⟩
      · rintro (e | ⟨e | e, e'⟩)
        · left; rw [e]
        · exact absurd (e ▸ h) e'
        · right; exact e
    · simp only [SortedSet.find, h, if_false] at hf
      simp only [SortedSet.setValue, h, if_false, List.mem_cons, ih hnd.2 hf]
      constructor
      · rintro (e | e | e)
        · right; exact ⟨Or.inl e, e ▸ h⟩
        · left; exact e
        · right; exact ⟨Or.inr e.1, e.2⟩
      · rintro (e | ⟨e | e, e'⟩)
        · right; left; exact e
        · left; exact e
        · right; right; exact ⟨e, e'⟩

theorem map_setValue (l : SortedSet κ) (k : κ) (v : UserOperation) :
    (SortedSet.setValue l k v).map (fun n => (n.score, n.key))
      = l.map (fun n => (n.score, n.key)) := by
  induction l with
  | nil => simp [SortedSet.setValue]
  | cons y ys ih => by_cases h : y.key = k <;> simp [SortedSet.setValue, h, ih]

theorem ordered_iff_map (l : SortedSet κ) :
    SortedSet.Ordered l ↔
      (l.map (fun n => (n.score, n.key))).Pairwise
        (fun a b => a.1 < b.1 ∨ (a.1 = b.1 ∧ a.2 < b.2)) := by
  unfold SortedSet.Ordered
  rw [List.pairwise_map]
  rfl

theorem wf_setValue {l : SortedSet κ} (hw : SortedSet.WF l) (k : κ) (v : UserOperation) :
    SortedSet.WF (SortedSet.setValue l k v) := by
  refine ⟨?_, ?_⟩
  · rw [ordered_iff_map, map_setValue, ← ordered_iff_map]; exact hw.1
  · have h := congrArg (List.map Prod.snd) (map_setValue l k v)
    simp only [List.map_map] at h
    unfold SortedSet.keys
    have e : (fun n : SortedSetNode κ => n.key) = Prod.snd ∘ (fun n => (n.score, n.key)) := rfl
    rw [e, h, ← e]; exact hw.2

theorem wf_addOrUpdate {l : SortedSet κ} (hw : SortedSet.WF l) (k : κ) (s : Int)
    (v : UserOperation) : SortedSet.WF (SortedSet.AddOrUpdate l k s v) := by
  unfold SortedSet.AddOrUpdate
  cases hf : SortedSet.find l k with
  | none => exact wf_insertNode v hw (find_eq_none.1 hf)
  | some found =>
    obtain ⟨hm, hk⟩ := find_eq_some hf
    simp only
    split
    · exact wf_setValue hw k v
    · rw [delete_eq_filter hw hm]
      refine wf_insertNode v (wf_filter hw _) (fun n hn => ?_)
      simpa [hk] using (List.mem_filter.1 hn).2

theorem mem_addOrUpdate {l : SortedSet κ} (hw : SortedSet.WF l) {k : κ} {s : Int}
    {v : UserOperation} {x : SortedSetNode κ} :
    x ∈ SortedSet.AddOrUpdate l k s v ↔ x = ⟨k, s, v⟩ ∨ (x ∈ l ∧ x.key ≠ k) := by
  unfold SortedSet.AddOrUpdate
  cases hf : SortedSet.find l k with
  | none =>
    simp only [mem_insertNode]
    have := find_eq_none.1 hf
    constructor
    · rintro (e | e)
      · exact Or.inl e
      · exact Or.inr ⟨e, this x e⟩
    · rintro (e | e)
      · exact Or.inl e
      · exact Or.inr e.1
  | some found =>
    obtain ⟨hm, hk⟩ := find_eq_some hf
    simp only
    split
    · rename_i hs
      rw [mem_setValue hw.2 hf, hs]
    · rw [mem_insertNode, delete_eq_filter hw hm, List.mem_filter, hk]
      simp

theorem length_delete {l : SortedSet κ} {n : SortedSetNode κ} (hw : SortedSet.WF l)
    (hn : n ∈ l) : (SortedSet.delete l n.score n.key).length + 1 = l.length := by
  induction l with
  | nil => simp at hn
  | cons y ys ih =>
    obtain ⟨ho, hnd⟩ := hw
    unfold SortedSet.Ordered at ho
    rw [List.pairwise_cons] at ho
    simp only [SortedSet.keys, List.map_cons, List.nodup_cons] at hnd
    by_cases h : y.before n.score n.key
    · have hne : n ≠ y := fun e => before_irrefl n (e ▸ h)
      have hys : n ∈ ys := by
        rcases List.mem_cons.1 hn with e | e
        · exact absurd e hne
        · exact e
      simp only [SortedSet.delete, h, if_true, List.length_cons]
      rw [ih ⟨ho.2, hnd.2⟩ hys]
    · have hny : n = y := by
        rcases List.mem_cons.1 hn with e | e
        · exact e
        · exact absurd (ho.1 n e) h
      subst hny
      simp [SortedSet.delete, h]

theorem length_addOrUpdate_of_mem {l : SortedSet κ} (hw : SortedSet.WF l) {k : κ} (s : Int)
    (v : UserOperation) (hk : ∃ n ∈ l, n.key = k) :
    (SortedSet.AddOrUpdate l k s v).length = l.length := by
  unfold SortedSet.AddOrUpdate
  cases hf : SortedSet.find l k with
  | none =>
    obtain ⟨n, hn, e⟩ := hk
    exact absurd e (find_eq_none.1 hf n hn)
  | some found =>
    obtain ⟨hm, _⟩ := find_eq_some hf
    simp only
    split
    · exact length_setValue l k v
    · rw [length_insertNode, length_delete hw hm]

theorem length_addOrUpdate_of_not_mem {l : SortedSet κ} {k : κ} (s : Int)
    (v : UserOperation) (hk : ∀ n ∈ l, n.key ≠ k) :
    (SortedSet.AddOrUpdate l k s v).length = l.length + 1 := by
  unfold SortedSet.AddOrUpdate
  rw [find_eq_none.2 hk]
  exact length_insertNode l s k v

theorem addOrUpdate_of_not_mem {l : SortedSet κ} {k : κ} (s : Int)
    (v : UserOperation) (hk : ∀ n ∈ l, n.key ≠ k) :
    SortedSet.AddOrUpdate l k s v = SortedSet.insertNode l s k v := by
  unfold SortedSet.AddOrUpdate
  rw [find_eq_none.2 hk]

theorem remove_of_not_mem {l : SortedSet κ} {k : κ} (hk : ∀ n ∈ l, n.key ≠ k) :
    SortedSet.Remove l k = l := by
  unfold SortedSet.Remove
  rw [find_eq_none.2 hk]

end SortedSetLemmas2

/-! ## Lemmas on the nonce loop of `Next` -/

section NonceLoop

theorem length_swapStep (b : List UserOperation) (i j : Nat) :
    (swapStep b i j).length = b.length := by
  unfold swapStep
  split
  · split <;> simp
  · rfl

theorem length_innerLoop_aux (js : List Nat) (b : List UserOperation) (i : Nat) :
    (js.foldl (fun b j => swapStep b i j) b).length = b.length := by
  induction js generalizing b with
  | nil => rfl
  | cons j js ih => simp [List.foldl_cons, ih, length_swapStep]

theorem length_innerLoop (b : List UserOperation) (i : Nat) :
    (innerLoop b i).length = b.length := length_innerLoop_aux _ b i

theorem length_nonceLoop_aux (is : List Nat) (b : List UserOperation) :
    (is.foldl (fun b i => innerLoop b i) b).length = b.length := by
  induction is generalizing b with
  | nil => rfl
  | cons i is ih => simp [List.foldl_cons, ih, length_innerLoop]

theorem length_nonceLoop (b : List UserOperation) : (nonceLoop b).length = b.length :=
  length_nonceLoop_aux _ b

theorem perm_set_of_getElem? {α : Type} (l : List α) (j : Nat) (a c : α)
    (hj : l[j]? = some c) : (c :: l.set j a).Perm (a :: l) := by
  induction l generalizing j with
  | nil => simp at hj
  | cons h t ih =>
    cases j with
    | zero =>
      simp only [List.getElem?_cons_zero, Option.some.injEq] at hj
      subst hj
      simp only [List.set_cons_zero]
      exact List.Perm.swap _ _ _
    | succ j =>
      simp only [List.getElem?_cons_succ] at hj
      simp only [List.set_cons_succ]
      exact (List.Perm.swap _ _ _).trans (((ih j hj).cons h).trans (List.Perm.swap _ _ _))

theorem perm_set_set {α : Type} (l : List α) (i j : Nat) (a c : α) (hij : i < j)
    (hi : l[i]? = some a) (hj : l[j]? = some c) : ((l.set i c).set j a).Perm l := by
  induction l generalizing i j with
  | nil => simp at hi
  | cons h t ih =>
    cases j with
    | zero => omega
    | succ j =>
      simp only [List.getElem?_cons_succ] at hj
      cases i with
      | zero =>
        simp only [List.getElem?_cons_zero, Option.some.injEq] at hi
        subst hi
        simp only [List.set_cons_zero, List.set_cons_succ]
        exact perm_set_of_getElem? t j h c hj
      | succ i =>
        simp only [List.getElem?_cons_succ] at hi
        simp only [List.set_cons_succ]
        exact (ih i j (by omega) hi hj).cons h

theorem perm_swapStep (b : List UserOperation) (i j : Nat) (hij : i < j) :
    (swapStep b i j).Perm b := by
  unfold swapStep
  split
  · rename_i a c hi hj
    split
    · exact perm_set_set b i j a c hij hi hj
    · exact List.Perm.refl _
  · exact List.Perm.refl _

theorem perm_innerLoop_aux (js : List Nat) (b : List UserOperation) (i : Nat)
    (h : ∀ j ∈ js, i < j) : (js.foldl (fun b j => swapStep b i j) b).Perm b := by
  induction js generalizing b with
  | nil => exact List.Perm.refl _
  | cons j js ih =>
    simp only [List.foldl_cons]
    exact (ih _ (fun k hk => h k (List.mem_cons_of_mem _ hk))).trans
      (perm_swapStep b i j (h j (List.mem_cons_self _ _)))

theorem perm_innerLoop (b : List UserOperation) (i : Nat) : (innerLoop b i).Perm b := by
  apply perm_innerLoop_aux
  intro j hj
  have := (List.mem_range'_1.1 hj).1
  omega

theorem perm_nonceLoop_aux (is : List Nat) (b : List UserOperation) :
    (is.foldl (fun b i => innerLoop b i) b).Perm b := by
  induction is generalizing b with
  | nil => exact List.Perm.refl _
  | cons i is ih =>
    simp only [List.foldl_cons]
    exact (ih _).trans (perm_innerLoop b i)

theorem perm_nonceLoop (b : List UserOperation) : (nonceLoop b).Perm b :=
  perm_nonceLoop_aux _ b

theorem innerInv_swapStep (b : List UserOperation) (i j : Nat) (hij : i < j)
    (h : InnerInv b i j) : InnerInv (swapStep b i j) i (j + 1) := by
  obtain ⟨hd, hin⟩ := h
  unfold swapStep
  split
  · rename_i a c hi hj
    have hil : i < b.length := (List.getElem?_eq_some.1 hi).1
    have hjl : j < b.length := (List.getElem?_eq_some.1 hj).1
    split
    · rename_i hsw
      have get : ∀ p, ((b.set i c).set j a)[p]? =
          if j = p then some a else if i = p then some c else b[p]? := by
        intro p
        rw [List.getElem?_set, List.getElem?_set]
        simp [hil, hjl]
      refine ⟨?_, ?_⟩
      · intro p q x y hp hpq hx hy hs
        rw [get] at hx hy
        have hx' : b[p]? = some x := by
          rw [if_neg (by omega), if_neg (by omega)] at hx; exact hx
        by_cases hjq : j = q
        · rw [if_pos hjq] at hy
          cases hy
          have := hd p i x a hp (by omega) hx' hi hs
          exact this
        · rw [if_neg hjq] at hy
          by_cases hiq : i = q
          · rw [if_pos hiq] at hy
            cases hy
            exact hd p j x c hp (by omega) hx' hj hs
          · rw [if_neg hiq] at hy
            exact hd p q x y hp hpq hx' hy hs
      · intro q x y hiq hqj hx hy hs
        rw [get] at hx hy
        rw [if_neg (by omega), if_pos rfl] at hx
        cases hx
        by_cases hjq : j = q
        · rw [if_pos hjq] at hy
          cases hy
          omega
        · rw [if_neg hjq, if_neg (by omega)] at hy
          have := hin q a y hiq (by omega) hi hy (by rw [hsw.1]; exact hs)
          omega
    · rename_i hsw
      refine ⟨hd, ?_⟩
      intro q x y hiq hqj hx hy hs
      by_cases hjq : q = j
      · subst hjq
        rw [hi] at hx; rw [hj] at hy
        cases hx; cases hy
        by_contra hc
        exact hsw ⟨hs, by omega⟩
      · exact hin q x y hiq (by omega) hx hy hs
  · rename_i hnone
    refine ⟨hd, ?_⟩
    intro q x y hiq hqj hx hy hs
    by_cases hjq : q = j
    · subst hjq
      exact absurd hy (fun e => hnone x y hx e)
    · exact hin q x y hiq (by omega) hx hy hs

theorem innerInv_foldl (n : Nat) (b : List UserOperation) (i j : Nat) (hij : i < j)
    (h : InnerInv b i j) :
    InnerInv ((List.range' j n).foldl (fun b j => swapStep b i j) b) i (j + n) := by
  induction n generalizing b j with
  | zero => simpa using h
  | succ n ih =>
    rw [List.range'_succ, List.foldl_cons]
    have := ih (swapStep b i j) (j + 1) (by omega) (innerInv_swapStep b i j hij h)
    rw [show j + (n + 1) = j + 1 + n by omega]
    exact this

theorem doneUpTo_innerLoop (b : List UserOperation) (i : Nat) (h : DoneUpTo b i) :
    DoneUpTo (innerLoop b i) (i + 1) := by
  have hinv : InnerInv b i (i + 1) := ⟨h, fun q x y h1 h2 => by omega⟩
  have := innerInv_foldl (b.length - (i + 1)) b i (i + 1) (by omega) hinv
  have hlen := length_innerLoop b i
  unfold innerLoop at hlen ⊢
  obtain ⟨hd, hin⟩ := this
  intro p q x y hp hpq hx hy hs
  by_cases hpi : p < i
  · exact hd p q x y hpi hpq hx hy hs
  · have hpe : p = i := by omega
    subst hpe
    have hq : q < b.length := by
      have := (List.getElem?_eq_some.1 hy).1
      rw [hlen] at this; exact this
    exact hin q x y hpq (by omega) hx hy hs

theorem doneUpTo_foldl (n : Nat) (b : List UserOperation) (h : DoneUpTo b 0) :
    DoneUpTo ((List.range n).foldl (fun b i => innerLoop b i) b) n := by
  induction n with
  | zero => simpa using h
  | succ n ih =>
    rw [List.range_succ, List.foldl_append]
    exact doneUpTo_innerLoop _ n ih

theorem doneUpTo_nonceLoop (b : List UserOperation) :
    DoneUpTo (nonceLoop b) (nonceLoop b).length := by
  rw [length_nonceLoop]
  exact doneUpTo_foldl b.length b (fun p q x y hp => by omega)

end NonceLoop

/-! ## Lemmas on the sets of the queue -/

section ViewLemmas
variable {κ : Type} [LinearOrder κ]

theorem getSender_snd (s : set κ) (a : Address) :
    (s.getSenderSortedSet a).2 = s.sendersOf a := by
  unfold set.getSenderSortedSet set.sendersOf
  cases s.senders a <;> simp [SortedSet.New]

theorem getSender_fst_all (s : set κ) (a : Address) :
    (s.getSenderSortedSet a).1.all = s.all := by
  unfold set.getSenderSortedSet
  cases s.senders a <;> simp

theorem getSender_fst_arrival (s : set κ) (a : Address) :
    (s.getSenderSortedSet a).1.arrival = s.arrival := by
  unfold set.getSenderSortedSet
  cases s.senders a <;> simp

theorem getSender_fst_sendersOf (s : set κ) (a b : Address) :
    (s.getSenderSortedSet a).1.sendersOf b = s.sendersOf b := by
  unfold set.getSenderSortedSet set.sendersOf
  cases h : s.senders a
  · by_cases e : b = a
    · subst e; simp [store, h, SortedSet.New]
    · simp [store, e]
  · simp

theorem addOp_all (uk : Address → Address → Int → κ) (s : set κ) (e : Address)
    (op : UserOperation) :
    (s.addOp uk e op).all
      = SortedSet.AddOrUpdate s.all (uk e op.Sender op.Nonce)
          (BigInt.Int64 op.MaxPriorityFeePerGas) op := by
  simp [set.addOp, getSender_fst_all]

theorem addOp_arrival (uk : Address → Address → Int → κ) (s : set κ) (e : Address)
    (op : UserOperation) :
    (s.addOp uk e op).arrival
      = SortedSet.AddOrUpdate s.arrival (uk e op.Sender op.Nonce)
          (SortedSet.GetCount (s.addOp uk e op).all) op := by
  simp [set.addOp, getSender_fst_all, getSender_fst_arrival]

theorem addOp_sendersOf (uk : Address → Address → Int → κ) (s : set κ) (e : Address)
    (op : UserOperation) (a : Address) :
    (s.addOp uk e op).sendersOf a
      = if a = op.Sender then
          SortedSet.AddOrUpdate (s.sendersOf a) (uk e op.Sender op.Nonce)
            (BigInt.Int64 op.Nonce) op
        else s.sendersOf a := by
  by_cases h : a = op.Sender
  · subst h
    simp [set.addOp, set.sendersOf, store, getSender_snd]
  · have := getSender_fst_sendersOf s op.Sender a
    simp only [set.sendersOf] at this
    simp [set.addOp, set.sendersOf, store, h, this]

theorem removeOp_all (uk : Address → Address → Int → κ) (s : set κ) (e : Address)
    (op : UserOperation) :
    (s.removeOp uk e op).all = SortedSet.Remove s.all (uk e op.Sender op.Nonce) := by
  simp [set.removeOp, getSender_fst_all]

theorem removeOp_arrival (uk : Address → Address → Int → κ) (s : set κ) (e : Address)
    (op : UserOperation) :
    (s.removeOp uk e op).arrival = SortedSet.Remove s.arrival (uk e op.Sender op.Nonce) := by
  simp [set.removeOp, getSender_fst_arrival]

theorem removeOp_sendersOf (uk : Address → Address → Int → κ) (s : set κ) (e : Address)
    (op : UserOperation) (a : Address) :
    (s.removeOp uk e op).sendersOf a
      = if a = op.Sender then SortedSet.Remove (s.sendersOf a) (uk e op.Sender op.Nonce)
        else s.sendersOf a := by
  by_cases h : a = op.Sender
  · subst h
    simp [set.removeOp, set.sendersOf, store, getSender_snd]
  · have := getSender_fst_sendersOf s op.Sender a
    simp only [set.sendersOf] at this
    simp [set.removeOp, set.sendersOf, store, h, this]

end ViewLemmas

section InvLemmas
variable {κ : Type} [LinearOrder κ]

theorem wf_nil : SortedSet.WF ([] : SortedSet κ) := by
  simp [SortedSet.WF, SortedSet.Ordered, SortedSet.keys]

theorem wf_of_sameView {uk : Address → Address → Int → κ} {e : Address} {s t : set κ}
    (h : set.SameView s t) (hw : set.WF uk e s) : set.WF uk e t := by
  obtain ⟨h1, h2, h3⟩ := h
  constructor
  · rw [← h1]; exact hw.all_wf
  · rw [← h2]; exact hw.arrival_wf
  · intro a; rw [← h3]; exact hw.senders_wf a
  · rw [← h1]; exact hw.all_key
  · rw [← h1]; exact hw.all_score
  · rw [← h2]; exact hw.arrival_key
  · intro a; rw [← h3]; exact hw.senders_key a
  · intro a; rw [← h3]; exact hw.senders_sender a
  · intro a; rw [← h3]; exact hw.senders_score a
  · rw [← h1, ← h2]; exact hw.all_sub_arrival
  · rw [← h1, ← h2]; exact hw.arrival_sub_all

theorem sub_addOrUpdate {l t : SortedSet κ} (hl : SortedSet.WF l) (ht : SortedSet.WF t)
    (h : SortedSet.Sub l t) (k : κ) (s s' : Int) (v : UserOperation) :
    SortedSet.Sub (SortedSet.AddOrUpdate l k s v) (SortedSet.AddOrUpdate t k s' v) := by
  intro m hm
  rw [mem_addOrUpdate hl] at hm
  rcases hm with hm | ⟨hm, hk⟩
  · subst hm
    exact ⟨⟨k, s', v⟩, (mem_addOrUpdate ht).2 (Or.inl rfl), rfl, rfl⟩
  · obtain ⟨n, hn, e1, e2⟩ := h m hm
    exact ⟨n, (mem_addOrUpdate ht).2 (Or.inr ⟨hn, by rw [e1]; exact hk⟩), e1, e2⟩

theorem sub_remove {l t : SortedSet κ} (hl : SortedSet.WF l) (ht : SortedSet.WF t)
    (h : SortedSet.Sub l t) (k : κ) :
    SortedSet.Sub (SortedSet.Remove l k) (SortedSet.Remove t k) := by
  intro m hm
  rw [mem_remove hl] at hm
  obtain ⟨n, hn, e1, e2⟩ := h m hm.1
  exact ⟨n, (mem_remove ht).2 ⟨hn, by rw [e1]; exact hm.2⟩, e1, e2⟩

theorem wf_addOp {uk : Address → Address → Int → κ} {e : Address} {s : set κ}
    (hw : set.WF uk e s) (op : UserOperation) : set.WF uk e (s.addOp uk e op) := by
  constructor
  · rw [addOp_all]; exact wf_addOrUpdate hw.all_wf _ _ _
  · rw [addOp_arrival]; exact wf_addOrUpdate hw.arrival_wf _ _ _
  · intro a
    rw [addOp_sendersOf]
    split
    · exact wf_addOrUpdate (hw.senders_wf a) _ _ _
    · exact hw.senders_wf a
  · intro n hn
    rw [addOp_all, mem_addOrUpdate hw.all_wf] at hn
    rcases hn with hn | hn
    · subst hn; rfl
    · exact hw.all_key n hn.1
  · intro n hn
    rw [addOp_all, mem_addOrUpdate hw.all_wf] at hn
    rcases hn with hn | hn
    · subst hn; rfl
    · exact hw.all_score n hn.1
  · intro n hn
    rw [addOp_arrival, mem_addOrUpdate hw.arrival_wf] at hn
    rcases hn with hn | hn
    · subst hn; rfl
    · exact hw.arrival_key n hn.1
  · intro a n hn
    rw [addOp_sendersOf] at hn
    split at hn
    · rename_i ha
      rw [mem_addOrUpdate (hw.senders_wf a)] at hn
      rcases hn with hn | hn
      · subst hn; rw [ha]
      · exact hw.senders_key a n hn.1
    · exact hw.senders_key a n hn
  · intro a n hn
    rw [addOp_sendersOf] at hn
    split at hn
    · rename_i ha
      rw [mem_addOrUpdate (hw.senders_wf a)] at hn
      rcases hn with hn | hn
      · subst hn; rw [ha]
      · exact hw.senders_sender a n hn.1
    · exact hw.senders_sender a n hn
  · intro a n hn
    rw [addOp_sendersOf] at hn
    split at hn
    · rw [mem_addOrUpdate (hw.senders_wf a)] at hn
      rcases hn with hn | hn
      · subst hn; rfl
      · exact hw.senders_score a n hn.1
    · exact hw.senders_score a n hn
  · rw [addOp_all, addOp_arrival]
    exact sub_addOrUpdate hw.all_wf hw.arrival_wf hw.all_sub_arrival _ _ _ _
  · rw [addOp_arrival, addOp_all]
    exact sub_addOrUpdate hw.arrival_wf hw.all_wf hw.arrival_sub_all _ _ _ _

theorem wf_removeOp {uk : Address → Address → Int → κ} {e : Address} {s : set κ}
    (hw : set.WF uk e s) (op : UserOperation) : set.WF uk e (s.removeOp uk e op) := by
  constructor
  · rw [removeOp_all]; exact wf_remove hw.all_wf _
  · rw [removeOp_arrival]; exact wf_remove hw.arrival_wf _
  · intro a
    rw [removeOp_sendersOf]
    split
    · exact wf_remove (hw.senders_wf a) _
    · exact hw.senders_wf a
  · intro n hn
    rw [removeOp_all, mem_remove hw.all_wf] at hn
    exact hw.all_key n hn.1
  · intro n hn
    rw [removeOp_all, mem_remove hw.all_wf] at hn
    exact hw.all_score n hn.1
  · intro n hn
    rw [removeOp_arrival, mem_remove hw.arrival_wf] at hn
    exact hw.arrival_key n hn.1
  · intro a n hn
    rw [removeOp_sendersOf] at hn
    split at hn
    · rw [mem_remove (hw.senders_wf a)] at hn
      exact hw.senders_key a n hn.1
    · exact hw.senders_key a n hn
  · intro a n hn
    rw [removeOp_sendersOf] at hn
    split at hn
    · rw [mem_remove (hw.senders_wf a)] at hn
      exact hw.senders_sender a n hn.1
    · exact hw.senders_sender a n hn
  · intro a n hn
    rw [removeOp_sendersOf] at hn
    split at hn
    · rw [mem_remove (hw.senders_wf a)] at hn
      exact hw.senders_score a n hn.1
    · exact hw.senders_score a n hn
  · rw [removeOp_all, removeOp_arrival]
    exact sub_remove hw.all_wf hw.arrival_wf hw.all_sub_arrival _
  · rw [removeOp_arrival, removeOp_all]
    exact sub_remove hw.arrival_wf hw.all_wf hw.arrival_sub_all _

theorem wf_removeOps {uk : Address → Address → Int → κ} {e : Address} (ops : List UserOperation)
    {s : set κ} (hw : set.WF uk e s) :
    set.WF uk e (ops.foldl (fun eps op => eps.removeOp uk e op) s) := by
  induction ops generalizing s with
  | nil => exact hw
  | cons op ops ih => exact ih (wf_removeOp hw op)

/-! ### The set of an entry point after each call -/

theorem setOf_eq (q : userOpQueues κ) (e : Address) :
    q.setOf e = (q.setsByEntryPoint e).getD
      { all := SortedSet.New, arrival := SortedSet.New, senders := fun _ => none } := by
  unfold userOpQueues.setOf userOpQueues.getEntryPointSet
  cases q.setsByEntryPoint e <;> rfl

theorem setOf_store (q : userOpQueues κ) (e e' : Address) (s : set κ) (n : Nat) (m : Int) :
    userOpQueues.setOf
      ({ maxBatchSize := m, opCount := n, setsByEntryPoint := store q.setsByEntryPoint e s } :
        userOpQueues κ) e'
      = if e' = e then s else q.setOf e' := by
  rw [setOf_eq, setOf_eq]
  by_cases h : e' = e <;> simp [store, h]

theorem getEntryPointSet_fst_setOf (q : userOpQueues κ) (e e' : Address) :
    (q.getEntryPointSet e).1.setOf e' = q.setOf e' := by
  rw [setOf_eq, setOf_eq]
  unfold userOpQueues.getEntryPointSet
  cases h : q.setsByEntryPoint e with
  | some v => simp
  | none =>
    by_cases he : e' = e
    · subst he; simp [store, h]
    · simp [store, he]

theorem getEntryPointSet_fst_store (q : userOpQueues κ) (e : Address) (s : set κ) :
    store (q.getEntryPointSet e).1.setsByEntryPoint e s = store q.setsByEntryPoint e s := by
  unfold userOpQueues.getEntryPointSet
  cases h : q.setsByEntryPoint e with
  | some v => simp
  | none =>
    funext a
    by_cases he : a = e <;> simp [store, he]

theorem setOf_AddOp (uk : Address → Address → Int → κ) (q : userOpQueues κ) (e e' : Address)
    (op : UserOperation) :
    (q.AddOp uk e op).setOf e' = if e' = e then (q.setOf e).addOp uk e op else q.setOf e' := by
  unfold userOpQueues.AddOp
  simp only
  rw [getEntryPointSet_fst_store, setOf_store]
  rfl

theorem setOf_RemoveOps (uk : Address → Address → Int → κ) (q : userOpQueues κ)
    (e e' : Address) (ops : List UserOperation) :
    (q.RemoveOps uk e ops).setOf e'
      = if e' = e then ops.foldl (fun eps op => eps.removeOp uk e op) (q.setOf e)
        else q.setOf e' := by
  unfold userOpQueues.RemoveOps
  simp only
  rw [getEntryPointSet_fst_store, setOf_store]
  rfl

theorem setOf_GetOps (q : userOpQueues κ) (e s e' : Address) :
    set.SameView (q.setOf e') ((q.GetOps e s).1.setOf e') := by
  unfold userOpQueues.GetOps
  simp only
  rw [getEntryPointSet_fst_store, setOf_store]
  by_cases h : e' = e
  · subst h
    simp only [if_true]
    exact ⟨(getSender_fst_all _ _).symm, (getSender_fst_arrival _ _).symm,
      fun a => (getSender_fst_sendersOf _ _ _).symm⟩
  · simp only [h, if_false]
    exact ⟨rfl, rfl, fun _ => rfl⟩

theorem setOf_Next (q : userOpQueues κ) (e e' : Address) :
    (q.Next e).1.setOf e' = q.setOf e' := getEntryPointSet_fst_setOf q e e'

theorem setOf_All (q : userOpQueues κ) (e e' : Address) :
    (q.All e).1.setOf e' = q.setOf e' := getEntryPointSet_fst_setOf q e e'

/-! ### What the queries return, in terms of the set of the entry point -/

theorem GetOps_snd (q : userOpQueues κ) (e s : Address) :
    (q.GetOps e s).2
      = values (SortedSet.GetByRankRange ((q.setOf e).sendersOf s) (-1)
          (-(SortedSet.GetCount ((q.setOf e).sendersOf s)))) := by
  unfold userOpQueues.GetOps
  simp only [getSender_snd]
  rfl

theorem Next_snd (q : userOpQueues κ) (e : Address) :
    (q.Next e).2
      = nonceLoop (values (SortedSet.GetByRankRange (q.setOf e).all (-1)
          (-defaultMaxBatchSize))) := rfl

theorem All_snd (q : userOpQueues κ) (e : Address) :
    (q.All e).2
      = values (SortedSet.GetByRankRange (q.setOf e).arrival 1 defaultMaxBatchSize) := rfl

/-! ### Every pool state satisfies the invariant -/

theorem inv_new (uk : Address → Address → Int → κ) :
    userOpQueues.Inv uk (newUserOpQueue : userOpQueues κ) := by
  intro e
  have h : (newUserOpQueue : userOpQueues κ).setOf e
      = { all := [], arrival := [], senders := fun _ => none } := rfl
  rw [h]
  constructor <;> simp [set.sendersOf, wf_nil, SortedSet.Sub]

theorem inv_step {uk : Address → Address → Int → κ} {q : userOpQueues κ}
    (h : userOpQueues.Inv uk q) (c : Call) : userOpQueues.Inv uk (step uk q c) := by
  intro e'
  cases c with
  | addOp e op =>
    simp only [step, setOf_AddOp]
    split
    · rename_i he; subst he; exact wf_addOp (h _) op
    · exact h e'
  | removeOps e ops =>
    simp only [step, setOf_RemoveOps]
    split
    · rename_i he; subst he; exact wf_removeOps ops (h _)
    · exact h e'
  | getOps e s => exact wf_of_sameView (setOf_GetOps q e s e') (h e')
  | next e => simp only [step, setOf_Next]; exact h e'
  | all e => simp only [step, setOf_All]; exact h e'

theorem inv_foldl {uk : Address → Address → Int → κ} (calls : List Call) {q : userOpQueues κ}
    (h : userOpQueues.Inv uk q) : userOpQueues.Inv uk (calls.foldl (step uk) q) := by
  induction calls generalizing q with
  | nil => exact h
  | cons c cs ih => exact ih (inv_step h c)

theorem reachable_inv {uk : Address → Address → Int → κ} {q : userOpQueues κ}
    (h : Reachable uk q) : userOpQueues.Inv uk q := by
  obtain ⟨calls, rfl⟩ := h
  exact inv_foldl calls (inv_new uk)

theorem reachable_step {uk : Address → Address → Int → κ} {q : userOpQueues κ}
    (h : Reachable uk q) (c : Call) : Reachable uk (step uk q c) := by
  obtain ⟨calls, rfl⟩ := h
  exact ⟨calls ++ [c], by simp [run, List.foldl_append]⟩

end InvLemmas

/-! ## Lemmas on rank ranges -/

section RankRange
variable {κ : Type} [LinearOrder κ]

theorem reverse_of_length_le_one {α : Type} (l : List α) (h : l.length ≤ 1) : l.reverse = l := by
  match l, h with
  | [], _ => rfl
  | [_], _ => rfl
  | _ :: _ :: _, h => simp at h

theorem rankRange_first (l : SortedSet κ) :
    SortedSet.GetByRankRange l 1 defaultMaxBatchSize = l.take 10 := by
  simp [SortedSet.GetByRankRange, defaultMaxBatchSize]

theorem rankRange_last (l : SortedSet κ) :
    SortedSet.GetByRankRange l (-1) (-defaultMaxBatchSize)
      = (l.drop (l.length - 10)).reverse := by
  unfold SortedSet.GetByRankRange defaultMaxBatchSize
  simp only [show ((-1 : Int) < 0) from by decide, show (-(10 : Int) < 0) from by decide, if_true]
  by_cases h0 : l.length ≤ 1
  · have h1 : ((l.length : Int) + -1 + 1 ≤ 0) ∨ (l.length : Int) + -1 + 1 = 1 := by omega
    have h2 : (l.length : Int) + -10 + 1 ≤ 0 := by omega
    have hd : l.drop (l.length - 10) = l := by
      rw [show l.length - 10 = 0 by omega]; rfl
    rw [hd, reverse_of_length_le_one l h0]
    rcases h1 with h1 | h1
    · simp only [h1, h2, if_true]
      simp
      exact h0
    · simp only [h1, h2, if_true]
      simp
      exact h0
  · have h1 : ¬ ((l.length : Int) + -1 + 1 ≤ 0) := by omega
    simp only [h1, if_false]
    by_cases h2 : (l.length : Int) + -10 + 1 ≤ 0
    · simp only [h2, if_true]
      have hr : (l.length : Int) + -1 + 1 > 1 := by omega
      simp only [hr, decide_True, if_true]
      have hd : l.drop (l.length - 10) = l := by
        rw [show l.length - 10 = 0 by omega]; rfl
      rw [hd]
      congr 1
      simp
    · simp only [h2, if_false]
      have hr : (l.length : Int) + -1 + 1 > (l.length : Int) + -10 + 1 := by omega
      simp only [hr, decide_True, if_true]
      congr 1
      have e1 : ((l.length : Int) + -10 + 1).toNat - 1 = l.length - 10 := by omega
      have e2 : ((l.length : Int) + -1 + 1).toNat + 1 - ((l.length : Int) + -10 + 1).toNat
          = 10 := by omega
      rw [e1, e2]
      apply List.take_of_length_le
      simp
      omega

theorem rankRange_whole (l : SortedSet κ) :
    SortedSet.GetByRankRange l (-1) (-(SortedSet.GetCount l)) = l.reverse := by
  unfold SortedSet.GetByRankRange SortedSet.GetCount
  simp only [show ((-1 : Int) < 0) from by decide, if_true]
  by_cases h0 : l.length ≤ 1
  · rw [reverse_of_length_le_one l h0]
    have h1 : ((l.length : Int) + -1 + 1 ≤ 0) ∨ (l.length : Int) + -1 + 1 = 1 := by omega
    have h2 : (if -(l.length : Int) < 0 then (l.length : Int) + -(l.length : Int) + 1
        else -(l.length : Int)) ≤ 0 ∨ (if -(l.length : Int) < 0 then
          (l.length : Int) + -(l.length : Int) + 1 else -(l.length : Int)) = 1 := by
      split <;> omega
    rcases h1 with h1 | h1 <;> rcases h2 with h2 | h2 <;> simp only [h1, h2, if_true] <;>
      simp <;> exact h0
  · have h1 : ¬ ((l.length : Int) + -1 + 1 ≤ 0) := by omega
    have h2 : -(l.length : Int) < 0 := by omega
    simp only [h1, h2, if_false, if_true]
    have h3 : ¬ ((l.length : Int) + -(l.length : Int) + 1 ≤ 0) := by omega
    have hr : (l.length : Int) + -1 + 1 > (l.length : Int) + -(l.length : Int) + 1 := by omega
    simp only [h3, if_false, hr, decide_True, if_true]
    congr 1
    have e1 : ((l.length : Int) + -(l.length : Int) + 1).toNat - 1 = 0 := by omega
    have e2 : ((l.length : Int) + -1 + 1).toNat + 1
        - ((l.length : Int) + -(l.length : Int) + 1).toNat = l.length := by omega
    rw [e1, e2]
    simp

end RankRange

/-! ## Consistency of the per-sender orderings -/

section ConsistentLemmas
variable {κ : Type} [LinearOrder κ]

theorem consistent_of_sameView {s t : set κ} (h : set.SameView s t) (hc : s.Consistent) :
    t.Consistent := by
  obtain ⟨h1, _, h3⟩ := h
  constructor
  · intro a; rw [← h1, ← h3]; exact hc.senders_sub_all a
  · intro m hm
    rw [← h1] at hm
    rw [← h3]
    exact hc.all_sub_senders m hm

theorem consistent_addOp {uk : Address → Address → Int → κ} (hinj : KeyInjective uk)
    {e : Address} {s : set κ} (hw : set.WF uk e s) (hc : s.Consistent) (op : UserOperation) :
    (s.addOp uk e op).Consistent := by
  constructor
  · intro a
    rw [addOp_all, addOp_sendersOf]
    split
    · exact sub_addOrUpdate (hw.senders_wf a) hw.all_wf (hc.senders_sub_all a) _ _ _ _
    · rename_i ha
      intro n hn
      obtain ⟨m, hm, e1, e2⟩ := hc.senders_sub_all a n hn
      refine ⟨m, (mem_addOrUpdate hw.all_wf).2 (Or.inr ⟨hm, ?_⟩), e1, e2⟩
      rw [e1, hw.senders_key a n hn]
      intro hk
      exact ha (hinj _ _ _ _ _ _ hk).2.1
  · intro m hm
    rw [addOp_all, mem_addOrUpdate hw.all_wf] at hm
    rw [addOp_sendersOf]
    rcases hm with hm | ⟨hm, hk⟩
    · subst hm
      simp only [if_true]
      exact ⟨⟨_, _, op⟩, (mem_addOrUpdate (hw.senders_wf _)).2 (Or.inl rfl), rfl, rfl⟩
    · obtain ⟨n, hn, e1, e2⟩ := hc.all_sub_senders m hm
      split
      · exact ⟨n, (mem_addOrUpdate (hw.senders_wf _)).2 (Or.inr ⟨hn, by rw [e1]; exact hk⟩),
          e1, e2⟩
      · exact ⟨n, hn, e1, e2⟩

theorem consistent_removeOp {uk : Address → Address → Int → κ} (hinj : KeyInjective uk)
    {e : Address} {s : set κ} (hw : set.WF uk e s) (hc : s.Consistent) (op : UserOperation) :
    (s.removeOp uk e op).Consistent := by
  constructor
  · intro a
    rw [removeOp_all, removeOp_sendersOf]
    split
    · exact sub_remove (hw.senders_wf a) hw.all_wf (hc.senders_sub_all a) _
    · rename_i ha
      intro n hn
      obtain ⟨m, hm, e1, e2⟩ := hc.senders_sub_all a n hn
      refine ⟨m, (mem_remove hw.all_wf).2 ⟨hm, ?_⟩, e1, e2⟩
      rw [e1, hw.senders_key a n hn]
      intro hk
      exact ha (hinj _ _ _ _ _ _ hk).2.1
  · intro m hm
    rw [removeOp_all, mem_remove hw.all_wf] at hm
    rw [removeOp_sendersOf]
    obtain ⟨n, hn, e1, e2⟩ := hc.all_sub_senders m hm.1
    split
    · exact ⟨n, (mem_remove (hw.senders_wf _)).2 ⟨hn, by rw [e1]; exact hm.2⟩, e1, e2⟩
    · exact ⟨n, hn, e1, e2⟩

theorem consistent_removeOps {uk : Address → Address → Int → κ} (hinj : KeyInjective uk)
    {e : Address} (ops : List UserOperation) {s : set κ} (hw : set.WF uk e s)
    (hc : s.Consistent) : (ops.foldl (fun eps op => eps.removeOp uk e op) s).Consistent := by
  induction ops generalizing s with
  | nil => exact hc
  | cons op ops ih => exact ih (wf_removeOp hw op) (consistent_removeOp hinj hw hc op)

theorem consistent_step {uk : Address → Address → Int → κ} (hinj : KeyInjective uk)
    {q : userOpQueues κ} (hi : userOpQueues.Inv uk q) (h : ∀ e, (q.setOf e).Consistent)
    (c : Call) : ∀ e, ((step uk q c).setOf e).Consistent := by
  intro e'
  cases c with
  | addOp e op =>
    simp only [step, setOf_AddOp]
    split
    · rename_i he; subst he; exact consistent_addOp hinj (hi _) (h _) op
    · exact h e'
  | removeOps e ops =>
    simp only [step, setOf_RemoveOps]
    split
    · rename_i he; subst he; exact consistent_removeOps hinj ops (hi _) (h _)
    · exact h e'
  | getOps e s => exact consistent_of_sameView (setOf_GetOps q e s e') (h e')
  | next e => simp only [step, setOf_Next]; exact h e'
  | all e => simp only [step, setOf_All]; exact h e'

theorem consistent_foldl {uk : Address → Address → Int → κ} (hinj : KeyInjective uk)
    (calls : List Call) {q : userOpQueues κ} (hi : userOpQueues.Inv uk q)
    (h : ∀ e, (q.setOf e).Consistent) :
    ∀ e, ((calls.foldl (step uk) q).setOf e).Consistent := by
  induction calls generalizing q with
  | nil => exact h
  | cons c cs ih => exact ih (inv_step hi c) (consistent_step hinj hi h c)

theorem reachable_consistent {uk : Address → Address → Int → κ} (hinj : KeyInjective uk)
    {q : userOpQueues κ} (h : Reachable uk q) (e : Address) : (q.setOf e).Consistent := by
  obtain ⟨calls, rfl⟩ := h
  refine consistent_foldl hinj calls (inv_new uk) (fun e => ?_) e
  have h : (newUserOpQueue : userOpQueues κ).setOf e
      = { all := [], arrival := [], senders := fun _ => none } := rfl
  rw [h]
  constructor <;> simp [set.sendersOf, SortedSet.Sub]

end ConsistentLemmas

/-! ## The claims -/

section Claims1
variable {κ : Type} [LinearOrder κ]

theorem mem_values {l : List (SortedSetNode κ)} {o : UserOperation} :
    o ∈ values l ↔ ∃ n ∈ l, n.Value = o := by
  simp [values]

theorem values_nodup {l : SortedSet κ} (f : UserOperation → κ) (hnd : (SortedSet.keys l).Nodup)
    (hk : ∀ n ∈ l, n.key = f n.Value) : (values l).Nodup := by
  have e : SortedSet.keys l = (values l).map f := by
    unfold SortedSet.keys values
    rw [List.map_map]
    exact List.map_congr_left (fun n hn => hk n hn)
  rw [e] at hnd
  exact List.Nodup.of_map f hnd

theorem node_eq_of_key {l : SortedSet κ} (hnd : (SortedSet.keys l).Nodup)
    {n m : SortedSetNode κ} (hn : n ∈ l) (hm : m ∈ l) (h : n.key = m.key) : n = m := by
  have h1 := find_of_mem hnd hn
  have h2 := find_of_mem hnd hm
  rw [h] at h1
  rw [h1] at h2
  exact Option.some.inj h2

theorem reachable_new (uk : Address → Address → Int → κ) :
    Reachable uk (newUserOpQueue : userOpQueues κ) := ⟨[], rfl⟩

theorem reachable_addOp {uk : Address → Address → Int → κ} {q : userOpQueues κ}
    (h : Reachable uk q) (e : Address) (op : UserOperation) : Reachable uk (q.AddOp uk e op) :=
  reachable_step h (Call.addOp e op)

theorem reachable_removeOps {uk : Address → Address → Int → κ} {q : userOpQueues κ}
    (h : Reachable uk q) (e : Address) (ops : List UserOperation) :
    Reachable uk (q.RemoveOps uk e ops) :=
  reachable_step h (Call.removeOps e ops)

theorem GetOps_eq (q : userOpQueues κ) (e s : Address) :
    (q.GetOps e s).2 = (values ((q.setOf e).sendersOf s)).reverse := by
  rw [GetOps_snd, rankRange_whole]
  simp [values]

theorem Next_perm (q : userOpQueues κ) (e : Address) :
    (q.Next e).2.Perm (values ((q.setOf e).all.drop ((q.setOf e).all.length - 10))) := by
  rw [Next_snd, rankRange_last]
  refine (perm_nonceLoop _).trans ?_
  unfold values
  rw [List.map_reverse]
  exact List.reverse_perm _

theorem All_eq (q : userOpQueues κ) (e : Address) :
    (q.All e).2 = values ((q.setOf e).arrival.take 10) := by
  rw [All_snd, rankRange_first]

/-- C1 (key uniqueness, last write wins): in every pool state, after `AddOp(e, op1)` followed
by `AddOp(e, op2)` with the same sender and nonce, `GetOps(e, sender)` contains `op2` exactly
once, contains `op1` only if `op1 = op2`, and holds no other operation with that nonce; and
among the operations stored under `e` exactly one has that sender and nonce, namely `op2`.
Nothing is assumed about the fees. -/
theorem C1_last_write_wins (getUniqueKey : Address → Address → Int → κ) (q : userOpQueues κ)
    (hq : Reachable getUniqueKey q) (e : Address) (op1 op2 : UserOperation)
    (_hs : op1.Sender = op2.Sender) (hn : op1.Nonce = op2.Nonce) :
    let q2 := (q.AddOp getUniqueKey e op1).AddOp getUniqueKey e op2
    (q2.GetOps e op2.Sender).2.count op2 = 1
      ∧ (op1 ≠ op2 → op1 ∉ (q2.GetOps e op2.Sender).2)
      ∧ (∀ o ∈ (q2.GetOps e op2.Sender).2, o.Nonce = op2.Nonce → o = op2)
      ∧ (q2.stored e).count op2 = 1
      ∧ (∀ o ∈ q2.stored e, o.Sender = op2.Sender → o.Nonce = op2.Nonce → o = op2) := by
  intro q2
  have h1 : Reachable getUniqueKey (q.AddOp getUniqueKey e op1) := reachable_addOp hq e op1
  have hw1 := reachable_inv h1 e
  have hw2 : set.WF getUniqueKey e (q2.setOf e) := reachable_inv (reachable_addOp h1 e op2) e
  have hset : q2.setOf e = ((q.AddOp getUniqueKey e op1).setOf e).addOp getUniqueKey e op2 := by
    simp [q2, setOf_AddOp]
  -- the node of `op2` is in the sender's set and in the by-priority ordering
  have hmemS : (⟨getUniqueKey e op2.Sender op2.Nonce, BigInt.Int64 op2.Nonce, op2⟩ :
      SortedSetNode κ) ∈ (q2.setOf e).sendersOf op2.Sender := by
    rw [hset, addOp_sendersOf, if_pos rfl]
    exact (mem_addOrUpdate (hw1.senders_wf _)).2 (Or.inl rfl)
  have hmemA : (⟨getUniqueKey e op2.Sender op2.Nonce,
      BigInt.Int64 op2.MaxPriorityFeePerGas, op2⟩ : SortedSetNode κ) ∈ (q2.setOf e).all := by
    rw [hset, addOp_all]
    exact (mem_addOrUpdate hw1.all_wf).2 (Or.inl rfl)
  have hndS : (q2.GetOps e op2.Sender).2.Nodup := by
    rw [GetOps_eq, List.nodup_reverse]
    exact values_nodup (fun o => getUniqueKey e op2.Sender o.Nonce) (hw2.senders_wf _).2
      (hw2.senders_key _)
  have hndA : (q2.stored e).Nodup :=
    values_nodup (fun o => getUniqueKey e o.Sender o.Nonce) hw2.all_wf.2 hw2.all_key
  have hinS : op2 ∈ (q2.GetOps e op2.Sender).2 := by
    rw [GetOps_eq, List.mem_reverse]
    exact mem_values.2 ⟨_, hmemS, rfl⟩
  have hinA : op2 ∈ q2.stored e := mem_values.2 ⟨_, hmemA, rfl⟩
  have huS : ∀ o ∈ (q2.GetOps e op2.Sender).2, o.Nonce = op2.Nonce → o = op2 := by
    intro o ho hno
    rw [GetOps_eq, List.mem_reverse] at ho
    obtain ⟨n, hnm, rfl⟩ := mem_values.1 ho
    have hk := hw2.senders_key _ n hnm
    rw [hno] at hk
    rw [node_eq_of_key (hw2.senders_wf _).2 hnm hmemS hk]
  have huA : ∀ o ∈ q2.stored e, o.Sender = op2.Sender → o.Nonce = op2.Nonce → o = op2 := by
    intro o ho hso hno
    obtain ⟨n, hnm, rfl⟩ := mem_values.1 ho
    have hk := hw2.all_key n hnm
    rw [hso, hno] at hk
    rw [node_eq_of_key hw2.all_wf.2 hnm hmemA hk]
  refine ⟨List.count_eq_one_of_mem hndS hinS, ?_, huS, List.count_eq_one_of_mem hndA hinA, huA⟩
  intro hne hin
  exact hne (huS op1 hin hn)

end Claims1

theorem Int64_of_fits {x : Int} (h : FitsInt64 x) : BigInt.Int64 x = x := by
  unfold FitsInt64 at h
  unfold BigInt.Int64
  simp only []
  have p63 : (2 : Int) ^ 63 = 9223372036854775808 := by norm_num
  have p64 : (2 : Int) ^ 64 = 18446744073709551616 := by norm_num
  have n64 : (2 : Nat) ^ 64 = 18446744073709551616 := by norm_num
  rw [p63] at h
  rw [p63, p64, n64]
  split <;> split <;> (try split) <;> omega

theorem exampleKey_injective : KeyInjective exampleKey := by
  intro e s n e' s' n' h
  simp only [exampleKey, List.cons.injEq, Nat.cast_inj, and_true] at h
  exact h

section Claims2
variable {κ : Type} [LinearOrder κ]

theorem le_of_before {a b : SortedSetNode κ} (h : a.before b.score b.key) :
    a.score ≤ b.score := by
  rcases h with h | h
  · exact le_of_lt h
  · exact le_of_eq h.1

/-- C2, as stated, fails: after adding nonce 1 and then nonce 2 for sender 7 under entry
point 1, `GetOps(1, 7)` returns nonce 2 before nonce 1, which is not ascending. -/
theorem C2_counterexample :
    (((q0.AddOp exampleKey 1 opA).AddOp exampleKey 1 opB).GetOps 1 7).2 = [opB, opA]
      ∧ ¬ List.Pairwise (fun a b : UserOperation => a.Nonce ≤ b.Nonce)
          (((q0.AddOp exampleKey 1 opA).AddOp exampleKey 1 opB).GetOps 1 7).2 := by
  have h : (((q0.AddOp exampleKey 1 opA).AddOp exampleKey 1 opB).GetOps 1 7).2 = [opB, opA] := by
    decide
  refine ⟨h, ?_⟩
  rw [h]
  decide

/-- C2, amended: in every pool state `GetOps(e, s)` is ordered descending by nonce score:
for positions `i < j` the `int64` score of nonce `i` is at least that of nonce `j`; hence
`nonce i ≥ nonce j` whenever both nonces fit in a signed 64-bit integer. -/
theorem C2_getOps_descending (getUniqueKey : Address → Address → Int → κ) (q : userOpQueues κ)
    (hq : Reachable getUniqueKey q) (e s : Address) :
    List.Pairwise (fun a b : UserOperation => BigInt.Int64 b.Nonce ≤ BigInt.Int64 a.Nonce)
        (q.GetOps e s).2
      ∧ List.Pairwise (fun a b : UserOperation =>
          FitsInt64 a.Nonce → FitsInt64 b.Nonce → b.Nonce ≤ a.Nonce) (q.GetOps e s).2 := by
  have hw := reachable_inv hq e
  have h1 : List.Pairwise (fun a b : UserOperation =>
      BigInt.Int64 b.Nonce ≤ BigInt.Int64 a.Nonce) (q.GetOps e s).2 := by
    rw [GetOps_eq, List.pairwise_reverse]
    unfold values
    rw [List.pairwise_map]
    refine List.Pairwise.imp_of_mem ?_ (hw.senders_wf s).1
    intro a b ha hb hab
    rw [← hw.senders_score s a ha, ← hw.senders_score s b hb]
    exact le_of_before hab
  refine ⟨h1, h1.imp ?_⟩
  intro a b hab fa fb
  rw [Int64_of_fits fa, Int64_of_fits fb] at hab
  exact hab

/-- Witness for the theorem of C2: the state after adding A and B. -/
theorem C2_getOps_descending_witness :
    Reachable exampleKey ((q0.AddOp exampleKey 1 opA).AddOp exampleKey 1 opB)
      ∧ List.Pairwise (fun a b : UserOperation => BigInt.Int64 b.Nonce ≤ BigInt.Int64 a.Nonce)
          (((q0.AddOp exampleKey 1 opA).AddOp exampleKey 1 opB).GetOps 1 7).2
      ∧ List.Pairwise (fun a b : UserOperation =>
          FitsInt64 a.Nonce → FitsInt64 b.Nonce → b.Nonce ≤ a.Nonce)
          (((q0.AddOp exampleKey 1 opA).AddOp exampleKey 1 opB).GetOps 1 7).2 :=
  ⟨reachable_addOp (reachable_addOp (reachable_new exampleKey) 1 opA) 1 opB,
    C2_getOps_descending exampleKey _ (reachable_addOp (reachable_addOp (reachable_new exampleKey) 1 opA) 1 opB) 1 7⟩

/-- Witness for the theorem of C1: A on a new queue, replaced by an operation with the
same sender and nonce and another fee. -/
theorem C1_last_write_wins_witness :
    Reachable exampleKey q0 ∧ opA.Sender = (⟨7, 1, 8, 3⟩ : UserOperation).Sender
      ∧ opA.Nonce = (⟨7, 1, 8, 3⟩ : UserOperation).Nonce
      ∧ (((q0.AddOp exampleKey 1 opA).AddOp exampleKey 1 ⟨7, 1, 8, 3⟩).GetOps 1 7).2.count
          ⟨7, 1, 8, 3⟩ = 1 :=
  ⟨reachable_new exampleKey, rfl, rfl,
    (C1_last_write_wins exampleKey q0 (reachable_new exampleKey) 1 opA ⟨7, 1, 8, 3⟩ rfl rfl).1⟩

/-- C3 (nonce correction): for every queue and entry point, the batch of `Next(e)` never
has a larger nonce before a smaller nonce of the same sender, whatever the fees are. -/
theorem C3_next_sender_nonce_order (q : userOpQueues κ) (e : Address) :
    List.Pairwise (fun a b : UserOperation => a.Sender = b.Sender → a.Nonce ≤ b.Nonce)
      (q.Next e).2 := by
  rw [Next_snd]
  rw [List.pairwise_iff_getElem]
  intro i j hi hj hij hs
  exact doneUpTo_nonceLoop _ i j _ _ hi hij (List.getElem?_eq_getElem hi)
    (List.getElem?_eq_getElem hj) hs

/-- The example of C3: with A (sender 7, nonce 1, fee 5), B (sender 7, nonce 2, fee 9) and
C (sender 8, nonce 1, fee 7) stored, `Next` returns A before B. -/
theorem next_example :
    ((((q0.AddOp exampleKey 1 opA).AddOp exampleKey 1 opB).AddOp exampleKey 1 opC).Next 1).2
      = [opA, opC, opB] := by
  decide

/-- C5 (batch size bound): for every queue and entry point, `Next(e)` and `All(e)` return at
most 10 operations, the default maximum batch size. -/
theorem C5_batch_size_bound (q : userOpQueues κ) (e : Address) :
    ((q.Next e).2.length : Int) ≤ defaultMaxBatchSize
      ∧ ((q.All e).2.length : Int) ≤ defaultMaxBatchSize := by
  have h1 : (q.Next e).2.length ≤ 10 := by
    rw [(Next_perm q e).length_eq]
    simp only [values, List.length_map, List.length_drop]
    omega
  have h2 : (q.All e).2.length ≤ 10 := by
    rw [All_eq]
    simp only [values, List.length_map, List.length_take]
    omega
  unfold defaultMaxBatchSize
  omega

end Claims2

section Claims3
variable {κ : Type} [LinearOrder κ]

/-- C4 (fee priority of `Next`): in a pool state whose stored fees under `e` all fit in a
signed 64-bit integer, with `n` operations stored under `e`, `Next(e)` holds exactly
`min(10, n)` operations, pairwise distinct, all stored under `e`, and each of them has a
`MaxPriorityFeePerGas` at least that of every stored operation of `e` left out of the batch. -/
theorem C4_next_highest_fees (getUniqueKey : Address → Address → Int → κ) (q : userOpQueues κ)
    (hq : Reachable getUniqueKey q) (e : Address)
    (hfit : ∀ o ∈ q.stored e, FitsInt64 o.MaxPriorityFeePerGas) :
    (q.Next e).2.length = min 10 (q.stored e).length
      ∧ (q.Next e).2.Nodup
      ∧ (∀ o ∈ (q.Next e).2, o ∈ q.stored e)
      ∧ (∀ o ∈ (q.Next e).2, ∀ o' ∈ q.stored e, o' ∉ (q.Next e).2 →
          o'.MaxPriorityFeePerGas ≤ o.MaxPriorityFeePerGas) := by
  have hw := reachable_inv hq e
  have hp := Next_perm q e
  have hsub : ∀ n ∈ (q.setOf e).all.drop ((q.setOf e).all.length - 10), n ∈ (q.setOf e).all :=
    fun n hn => List.mem_of_mem_drop hn
  have hnd : (q.stored e).Nodup :=
    values_nodup (fun o => getUniqueKey e o.Sender o.Nonce) hw.all_wf.2 hw.all_key
  refine ⟨?_, ?_, ?_, ?_⟩
  · rw [hp.length_eq]
    simp only [userOpQueues.stored, values, List.length_map, List.length_drop]
    omega
  · rw [hp.nodup_iff]
    exact List.Nodup.sublist (List.Sublist.map _ (List.drop_sublist _ _)) hnd
  · intro o ho
    obtain ⟨n, hn, rfl⟩ := mem_values.1 (hp.mem_iff.1 ho)
    exact mem_values.2 ⟨n, hsub n hn, rfl⟩
  · intro o ho o' ho' hout
    obtain ⟨n, hn, rfl⟩ := mem_values.1 (hp.mem_iff.1 ho)
    obtain ⟨n', hn', rfl⟩ := mem_values.1 ho'
    have hnotin : n' ∉ (q.setOf e).all.drop ((q.setOf e).all.length - 10) :=
      fun h => hout (hp.mem_iff.2 (mem_values.2 ⟨n', h, rfl⟩))
    have hsplit := List.take_append_drop ((q.setOf e).all.length - 10) (q.setOf e).all
    have hin : n' ∈ (q.setOf e).all.take ((q.setOf e).all.length - 10) := by
      rw [← hsplit, List.mem_append] at hn'
      rcases hn' with h | h
      · exact h
      · exact absurd h hnotin
    have ho : SortedSet.Ordered (q.setOf e).all := hw.all_wf.1
    unfold SortedSet.Ordered at ho
    rw [← hsplit, List.pairwise_append] at ho
    have hb := le_of_before (ho.2.2 n' hin n hn)
    rw [hw.all_score n' (List.mem_of_mem_take hin), hw.all_score n (hsub n hn),
      Int64_of_fits (hfit _ (mem_values.2 ⟨n', List.mem_of_mem_take hin, rfl⟩)),
      Int64_of_fits (hfit _ (mem_values.2 ⟨n, hsub n hn, rfl⟩))] at hb
    exact hb

/-- Witness for the theorem of C4: the state with A, B and C stored. -/
theorem C4_next_highest_fees_witness :
    Reachable exampleKey
        (((q0.AddOp exampleKey 1 opA).AddOp exampleKey 1 opB).AddOp exampleKey 1 opC)
      ∧ (∀ o ∈ (((q0.AddOp exampleKey 1 opA).AddOp exampleKey 1 opB).AddOp exampleKey 1
          opC).stored 1, FitsInt64 o.MaxPriorityFeePerGas)
      ∧ ((((q0.AddOp exampleKey 1 opA).AddOp exampleKey 1 opB).AddOp exampleKey 1 opC).Next
          1).2.length = 3 :=
  have hr := reachable_addOp (reachable_addOp (reachable_addOp (reachable_new exampleKey) 1 opA) 1 opB) 1 opC
  have hf : ∀ o ∈ (((q0.AddOp exampleKey 1 opA).AddOp exampleKey 1 opB).AddOp exampleKey 1
      opC).stored 1, FitsInt64 o.MaxPriorityFeePerGas := by
    unfold FitsInt64
    decide
  ⟨hr, hf, (C4_next_highest_fees exampleKey _ hr 1 hf).1⟩

end Claims3

section Claims4
variable {κ : Type} [LinearOrder κ]

theorem values_arrivalNodes (uk : Address → Address → Int → κ) (e : Address)
    (ops : List UserOperation) (m : Nat) : values (arrivalNodes uk e ops m) = ops := by
  induction ops generalizing m with
  | nil => rfl
  | cons o os ih =>
    simp only [arrivalNodes, values, List.map_cons, List.cons.injEq, true_and]
    exact ih (m + 1)

theorem setOf_foldl_AddOp (uk : Address → Address → Int → κ) (e : Address)
    (ops : List UserOperation) (q : userOpQueues κ) :
    (ops.foldl (fun q o => q.AddOp uk e o) q).setOf e
      = ops.foldl (fun s o => s.addOp uk e o) (q.setOf e) := by
  induction ops generalizing q with
  | nil => rfl
  | cons o os ih =>
    simp only [List.foldl_cons]
    rw [ih, setOf_AddOp, if_pos rfl]

theorem arrival_foldl_addOp {uk : Address → Address → Int → κ} {e : Address}
    (ops : List UserOperation) (s : set κ) (m : Nat) (hw : set.WF uk e s)
    (hlen : s.all.length = m) (hsc : ∀ n ∈ s.arrival, n.score ≤ (m : Int))
    (hnd : (ops.map (fun o => uk e o.Sender o.Nonce)).Nodup)
    (hnew : ∀ o ∈ ops, ∀ n ∈ s.arrival, n.key ≠ uk e o.Sender o.Nonce) :
    (ops.foldl (fun s o => s.addOp uk e o) s).arrival = s.arrival ++ arrivalNodes uk e ops m := by
  induction ops generalizing s m with
  | nil => simp [arrivalNodes]
  | cons o os ih =>
    simp only [List.map_cons, List.nodup_cons, List.mem_map, not_exists, not_and] at hnd
    have hka : ∀ n ∈ s.arrival, n.key ≠ uk e o.Sender o.Nonce :=
      hnew o (List.mem_cons_self _ _)
    have hkl : ∀ n ∈ s.all, n.key ≠ uk e o.Sender o.Nonce := by
      intro n hn hk
      obtain ⟨n', hn', e1, _⟩ := hw.all_sub_arrival n hn
      exact hka n' hn' (e1.trans hk)
    have hlen' : (s.addOp uk e o).all.length = m + 1 := by
      rw [addOp_all, length_addOrUpdate_of_not_mem _ _ hkl, hlen]
    have harr : (s.addOp uk e o).arrival
        = s.arrival ++ [⟨uk e o.Sender o.Nonce, (m : Int) + 1, o⟩] := by
      rw [addOp_arrival, addOrUpdate_of_not_mem _ _ hka]
      unfold SortedSet.GetCount
      rw [hlen']
      rw [insertNode_append]
      · simp
      · intro n hn
        left
        have := hsc n hn
        push_cast
        omega
    simp only [List.foldl_cons]
    rw [ih (s.addOp uk e o) (m + 1) (wf_addOp hw o) hlen' ?_ hnd.2 ?_, harr]
    · simp [arrivalNodes]
    · intro n hn
      rw [harr, List.mem_append] at hn
      rcases hn with hn | hn
      · have := hsc n hn
        push_cast
        omega
      · simp only [List.mem_singleton] at hn
        subst hn
        simp
    · intro o' ho' n hn
      rw [harr, List.mem_append] at hn
      rcases hn with hn | hn
      · exact hnew o' (List.mem_cons_of_mem _ ho') n hn
      · simp only [List.mem_singleton] at hn
        subst hn
        exact fun h => hnd.1 o' ho' h.symm

/-- C6 (arrival FIFO on an add-only history): in every pool state in which entry point `e`
holds no operation, adding operations `O1..Ok` with pairwise distinct keys in that order
makes `All(e)` return `O1..O_min(k,10)` in insertion order, whatever their fees and nonces. -/
theorem C6_all_fifo_add_only (getUniqueKey : Address → Address → Int → κ) (q : userOpQueues κ)
    (hq : Reachable getUniqueKey q) (e : Address) (hempty : q.stored e = [])
    (ops : List UserOperation)
    (hkeys : (ops.map (fun o => getUniqueKey e o.Sender o.Nonce)).Nodup) :
    ((ops.foldl (fun q o => q.AddOp getUniqueKey e o) q).All e).2 = ops.take 10 := by
  have hw := reachable_inv hq e
  have hall : (q.setOf e).all = [] := by
    simpa [userOpQueues.stored, values] using hempty
  have harr : (q.setOf e).arrival = [] := by
    cases h : (q.setOf e).arrival with
    | nil => rfl
    | cons n ns =>
      obtain ⟨m, hm, _⟩ := hw.arrival_sub_all n (by rw [h]; exact List.mem_cons_self _ _)
      rw [hall] at hm
      simp at hm
  rw [All_eq, setOf_foldl_AddOp,
    arrival_foldl_addOp ops (q.setOf e) 0 hw (by rw [hall]; rfl) (by rw [harr]; simp) hkeys
      (by rw [harr]; simp),
    harr, List.nil_append]
  unfold values
  rw [List.map_take]
  exact congrArg (List.take 10) (values_arrivalNodes getUniqueKey e ops 0)

/-- Witness for the theorem of C6: B, A and C, with distinct keys and fees 9, 5, 7,
added in that order to a new queue, come back in insertion order. -/
theorem C6_all_fifo_add_only_witness :
    Reachable exampleKey q0 ∧ q0.stored 1 = []
      ∧ ([opB, opA, opC].map (fun o => exampleKey 1 o.Sender o.Nonce)).Nodup
      ∧ (([opB, opA, opC].foldl (fun q o => q.AddOp exampleKey 1 o) q0).All 1).2
          = [opB, opA, opC] :=
  ⟨reachable_new exampleKey, rfl, by decide,
    C6_all_fifo_add_only exampleKey q0 (reachable_new exampleKey) 1 rfl [opB, opA, opC]
      (by decide)⟩

end Claims4

section Claims5
variable {κ : Type} [LinearOrder κ]

/-- C7 fails on the code: A, B, C are added, A and B are removed, then D is added. D gets the
arrival score 2 (the count after its insertion) while the older C keeps 3, so `All` returns
D before C. -/
theorem C7_all_not_fifo_after_removal :
    ((((((q0.AddOp exampleKey 1 opA).AddOp exampleKey 1 opB).AddOp exampleKey 1 opC).RemoveOps
        exampleKey 1 [opA, opB]).AddOp exampleKey 1 opD).All 1).2 = [opD, opC] := by
  decide

theorem mem_removeOps_all {uk : Address → Address → Int → κ} {e : Address}
    (ops : List UserOperation) {s : set κ} (hw : set.WF uk e s) {n : SortedSetNode κ} :
    n ∈ (ops.foldl (fun eps op => eps.removeOp uk e op) s).all
      ↔ n ∈ s.all ∧ ∀ r ∈ ops, n.key ≠ uk e r.Sender r.Nonce := by
  induction ops generalizing s with
  | nil => simp
  | cons r rs ih =>
    simp only [List.foldl_cons]
    rw [ih (wf_removeOp hw r), removeOp_all, mem_remove hw.all_wf]
    simp only [List.mem_cons, forall_eq_or_imp]
    tauto

theorem mem_removeOps_arrival {uk : Address → Address → Int → κ} {e : Address}
    (ops : List UserOperation) {s : set κ} (hw : set.WF uk e s) {n : SortedSetNode κ} :
    n ∈ (ops.foldl (fun eps op => eps.removeOp uk e op) s).arrival
      ↔ n ∈ s.arrival ∧ ∀ r ∈ ops, n.key ≠ uk e r.Sender r.Nonce := by
  induction ops generalizing s with
  | nil => simp
  | cons r rs ih =>
    simp only [List.foldl_cons]
    rw [ih (wf_removeOp hw r), removeOp_arrival, mem_remove hw.arrival_wf]
    simp only [List.mem_cons, forall_eq_or_imp]
    tauto

theorem mem_removeOps_sendersOf {uk : Address → Address → Int → κ} {e : Address}
    (ops : List UserOperation) {s : set κ} (hw : set.WF uk e s) (a : Address)
    {n : SortedSetNode κ} :
    n ∈ (ops.foldl (fun eps op => eps.removeOp uk e op) s).sendersOf a
      ↔ n ∈ s.sendersOf a ∧ ∀ r ∈ ops, r.Sender = a → n.key ≠ uk e r.Sender r.Nonce := by
  induction ops generalizing s with
  | nil => simp
  | cons r rs ih =>
    simp only [List.foldl_cons]
    rw [ih (wf_removeOp hw r), removeOp_sendersOf]
    simp only [List.mem_cons, forall_eq_or_imp]
    by_cases h : a = r.Sender
    · rw [if_pos h, mem_remove (hw.senders_wf a)]
      simp only [h, true_implies]
      tauto
    · rw [if_neg h]
      have h' : ¬ r.Sender = a := fun e => h e.symm
      simp only [h', false_implies, true_and]

theorem setOf_RemoveOps_same (uk : Address → Address → Int → κ) (q : userOpQueues κ)
    (e : Address) (ops : List UserOperation) :
    (q.RemoveOps uk e ops).setOf e
      = ops.foldl (fun eps op => eps.removeOp uk e op) (q.setOf e) := by
  rw [setOf_RemoveOps, if_pos rfl]

/-- C8 (removal by key): with an injective key derivation, in every pool state, after
`RemoveOps(e, ops...)` no operation with the sender and nonce of a member of `ops` is
returned by `GetOps(e, ·)`, `Next(e)` or `All(e)`, whatever its other fields are, and every
operation stored under `e` before the call whose (sender, nonce) is that of no member of
`ops` is still stored and still returned by `GetOps` for its sender. -/
theorem C8_removeOps_by_key (getUniqueKey : Address → Address → Int → κ)
    (hinj : KeyInjective getUniqueKey) (q : userOpQueues κ) (hq : Reachable getUniqueKey q)
    (e : Address) (ops : List UserOperation) :
    (∀ o : UserOperation, (∃ r ∈ ops, r.Sender = o.Sender ∧ r.Nonce = o.Nonce) →
        (∀ s, o ∉ ((q.RemoveOps getUniqueKey e ops).GetOps e s).2)
          ∧ o ∉ ((q.RemoveOps getUniqueKey e ops).Next e).2
          ∧ o ∉ ((q.RemoveOps getUniqueKey e ops).All e).2)
      ∧ (∀ o ∈ q.stored e, (∀ r ∈ ops, ¬ (r.Sender = o.Sender ∧ r.Nonce = o.Nonce)) →
          o ∈ (q.RemoveOps getUniqueKey e ops).stored e
            ∧ o ∈ ((q.RemoveOps getUniqueKey e ops).GetOps e o.Sender).2) := by
  have hw := reachable_inv hq e
  have hw' : set.WF getUniqueKey e ((q.RemoveOps getUniqueKey e ops).setOf e) :=
    reachable_inv (reachable_removeOps hq e ops) e
  have hset := setOf_RemoveOps_same getUniqueKey q e ops
  constructor
  · rintro o ⟨r, hr, hrs, hrn⟩
    refine ⟨fun s ho => ?_, fun ho => ?_, fun ho => ?_⟩
    · rw [GetOps_eq, List.mem_reverse] at ho
      obtain ⟨n, hn, rfl⟩ := mem_values.1 ho
      have hk := hw'.senders_key s n hn
      have hsd := hw'.senders_sender s n hn
      rw [hset, mem_removeOps_sendersOf ops hw] at hn
      refine hn.2 r hr (hrs.trans hsd) ?_
      rw [hk, hrs, hrn, hsd]
    · obtain ⟨n, hn, rfl⟩ := mem_values.1 ((Next_perm _ e).mem_iff.1 ho)
      have hn := List.mem_of_mem_drop hn
      have hk := hw'.all_key n hn
      rw [hset, mem_removeOps_all ops hw] at hn
      refine hn.2 r hr ?_
      rw [hk, hrs, hrn]
    · rw [All_eq] at ho
      obtain ⟨n, hn, rfl⟩ := mem_values.1 ho
      have hn := List.mem_of_mem_take hn
      have hk := hw'.arrival_key n hn
      rw [hset, mem_removeOps_arrival ops hw] at hn
      refine hn.2 r hr ?_
      rw [hk, hrs, hrn]
  · intro o ho hother
    obtain ⟨m, hm, rfl⟩ := mem_values.1 ho
    have hkeep : ∀ r ∈ ops, m.key ≠ getUniqueKey e r.Sender r.Nonce := by
      intro r hr hk
      rw [hw.all_key m hm] at hk
      obtain ⟨_, h1, h2⟩ := hinj _ _ _ _ _ _ hk
      exact hother r hr ⟨h1.symm, h2.symm⟩
    constructor
    · refine mem_values.2 ⟨m, ?_, rfl⟩
      rw [hset, mem_removeOps_all ops hw]
      exact ⟨hm, hkeep⟩
    · obtain ⟨n, hn, e1, e2⟩ := (reachable_consistent hinj hq e).all_sub_senders m hm
      rw [GetOps_eq, List.mem_reverse]
      refine mem_values.2 ⟨n, ?_, e2⟩
      rw [hset, mem_removeOps_sendersOf ops hw]
      exact ⟨hn, fun r hr _ => by rw [e1]; exact hkeep r hr⟩

/-- Witness for the theorem of C8: with A, B and C stored, an operation with the key of
A and other fields is removed; A is gone, and B is still returned. -/
theorem C8_removeOps_by_key_witness :
    KeyInjective exampleKey
      ∧ Reachable exampleKey
          (((q0.AddOp exampleKey 1 opA).AddOp exampleKey 1 opB).AddOp exampleKey 1 opC)
      ∧ opA ∉ (((((q0.AddOp exampleKey 1 opA).AddOp exampleKey 1 opB).AddOp exampleKey 1
          opC).RemoveOps exampleKey 1 [⟨7, 1, 100, 4⟩]).Next 1).2
      ∧ opB ∈ (((((q0.AddOp exampleKey 1 opA).AddOp exampleKey 1 opB).AddOp exampleKey 1
          opC).RemoveOps exampleKey 1 [⟨7, 1, 100, 4⟩]).GetOps 1 7).2 :=
  have hr := reachable_addOp (reachable_addOp (reachable_addOp (reachable_new exampleKey) 1 opA) 1 opB) 1 opC
  have h := C8_removeOps_by_key exampleKey exampleKey_injective _ hr 1 [⟨7, 1, 100, 4⟩]
  ⟨exampleKey_injective, hr,
    (h.1 opA ⟨⟨7, 1, 100, 4⟩, List.mem_singleton.2 rfl, rfl, rfl⟩).2.1,
    (h.2 opB (by decide) (by decide)).2⟩

end Claims5

section Claims6
variable {κ : Type} [LinearOrder κ]

theorem queries_of_sameView {q q' : userOpQueues κ} {e : Address}
    (h : set.SameView (q.setOf e) (q'.setOf e)) :
    (∀ s, (q.GetOps e s).2 = (q'.GetOps e s).2) ∧ (q.Next e).2 = (q'.Next e).2
      ∧ (q.All e).2 = (q'.All e).2 := by
  obtain ⟨h1, h2, h3⟩ := h
  refine ⟨fun s => ?_, ?_, ?_⟩
  · rw [GetOps_eq, GetOps_eq, h3]
  · rw [Next_snd, Next_snd, h1]
  · rw [All_eq, All_eq, h2]

theorem remove_remove {l : SortedSet κ} (hw : SortedSet.WF l) (k : κ) :
    SortedSet.Remove (SortedSet.Remove l k) k = SortedSet.Remove l k :=
  remove_of_not_mem (fun _ hn => ((mem_remove hw).1 hn).2)

theorem sameView_removeOp_twice {uk : Address → Address → Int → κ} {e : Address} {s : set κ}
    (hw : set.WF uk e s) (op : UserOperation) :
    set.SameView ((s.removeOp uk e op).removeOp uk e op) (s.removeOp uk e op) := by
  refine ⟨?_, ?_, fun a => ?_⟩
  · rw [removeOp_all, removeOp_all, remove_remove hw.all_wf]
  · rw [removeOp_arrival, removeOp_arrival, remove_remove hw.arrival_wf]
  · rw [removeOp_sendersOf, removeOp_sendersOf]
    split
    · rw [remove_remove (hw.senders_wf a)]
    · rfl

theorem sameView_removeOp_absent {uk : Address → Address → Int → κ} {e : Address} {s : set κ}
    (hw : set.WF uk e s) (hc : s.Consistent) (op : UserOperation)
    (habs : ∀ n ∈ s.all, n.key ≠ uk e op.Sender op.Nonce) :
    set.SameView (s.removeOp uk e op) s := by
  refine ⟨?_, ?_, fun a => ?_⟩
  · rw [removeOp_all, remove_of_not_mem habs]
  · rw [removeOp_arrival, remove_of_not_mem]
    intro n hn hk
    obtain ⟨m, hm, e1, _⟩ := hw.arrival_sub_all n hn
    exact habs m hm (e1.trans hk)
  · rw [removeOp_sendersOf]
    split
    · rw [remove_of_not_mem]
      intro n hn hk
      obtain ⟨m, hm, e1, _⟩ := hc.senders_sub_all a n hn
      exact habs m hm (e1.trans hk)
    · rfl

theorem sameView_refl (s : set κ) : set.SameView s s := ⟨rfl, rfl, fun _ => rfl⟩

/-- C9 (removal idempotence, absent key): in every pool state, `RemoveOps(e, op)` applied
twice in a row leaves every `GetOps`, `Next` and `All` result, for every entry point and
sender, as one application does; and, the key derivation being injective, `RemoveOps(e, op)`
for a key that no operation stored under `e` has leaves all these results as they were. -/
theorem C9_removeOps_idempotent (getUniqueKey : Address → Address → Int → κ)
    (q : userOpQueues κ) (hq : Reachable getUniqueKey q) (e : Address) (op : UserOperation) :
    (∀ e' : Address,
        (∀ s, (((q.RemoveOps getUniqueKey e [op]).RemoveOps getUniqueKey e [op]).GetOps e' s).2
            = ((q.RemoveOps getUniqueKey e [op]).GetOps e' s).2)
          ∧ (((q.RemoveOps getUniqueKey e [op]).RemoveOps getUniqueKey e [op]).Next e').2
            = ((q.RemoveOps getUniqueKey e [op]).Next e').2
          ∧ (((q.RemoveOps getUniqueKey e [op]).RemoveOps getUniqueKey e [op]).All e').2
            = ((q.RemoveOps getUniqueKey e [op]).All e').2)
      ∧ (KeyInjective getUniqueKey →
          (∀ o ∈ q.stored e,
            getUniqueKey e o.Sender o.Nonce ≠ getUniqueKey e op.Sender op.Nonce) →
          ∀ e' : Address,
            (∀ s, ((q.RemoveOps getUniqueKey e [op]).GetOps e' s).2 = (q.GetOps e' s).2)
              ∧ ((q.RemoveOps getUniqueKey e [op]).Next e').2 = (q.Next e').2
              ∧ ((q.RemoveOps getUniqueKey e [op]).All e').2 = (q.All e').2) := by
  have hw := reachable_inv hq e
  constructor
  · intro e'
    apply queries_of_sameView
    rw [setOf_RemoveOps getUniqueKey (q.RemoveOps getUniqueKey e [op]) e e' [op]]
    by_cases h : e' = e
    · subst h
      rw [if_pos rfl, setOf_RemoveOps_same]
      simp only [List.foldl_cons, List.foldl_nil]
      exact sameView_removeOp_twice hw op
    · rw [if_neg h]
      exact sameView_refl _
  · intro hinj habs e'
    apply queries_of_sameView
    rw [setOf_RemoveOps]
    by_cases h : e' = e
    · subst h
      simp only [if_true, List.foldl_cons, List.foldl_nil]
      refine sameView_removeOp_absent hw (reachable_consistent hinj hq e') op (fun n hn => ?_)
      rw [hw.all_key n hn]
      exact habs _ (mem_values.2 ⟨n, hn, rfl⟩)
    · simp only [h, if_false]
      exact sameView_refl _

/-- Witness for the theorem of C9: with A and B stored, C is removed (absent) and
A is removed twice. -/
theorem C9_removeOps_idempotent_witness :
    Reachable exampleKey ((q0.AddOp exampleKey 1 opA).AddOp exampleKey 1 opB)
      ∧ (((((q0.AddOp exampleKey 1 opA).AddOp exampleKey 1 opB).RemoveOps exampleKey 1
            [opA]).RemoveOps exampleKey 1 [opA]).Next 1).2
          = ((((q0.AddOp exampleKey 1 opA).AddOp exampleKey 1 opB).RemoveOps exampleKey 1
            [opA]).Next 1).2
      ∧ ((((q0.AddOp exampleKey 1 opA).AddOp exampleKey 1 opB).RemoveOps exampleKey 1
            [opC]).Next 1).2
          = (((q0.AddOp exampleKey 1 opA).AddOp exampleKey 1 opB).Next 1).2 :=
  have hr := reachable_addOp (reachable_addOp (reachable_new exampleKey) 1 opA) 1 opB
  ⟨hr, ((C9_removeOps_idempotent exampleKey _ hr 1 opA).1 1).2.1,
    ((C9_removeOps_idempotent exampleKey _ hr 1 opC).2 exampleKey_injective (by decide) 1).2.1⟩

/-! ### Isolation across entry points -/

theorem holds_addOp {uk : Address → Address → Int → κ} {e : Address} {s : set κ}
    (hw : set.WF uk e s) {op o : UserOperation} (h : (s.addOp uk e op).Holds o) :
    o = op ∨ s.Holds o := by
  rcases h with h | h | ⟨a, h⟩
  · obtain ⟨n, hn, rfl⟩ := mem_values.1 h
    rw [addOp_all, mem_addOrUpdate hw.all_wf] at hn
    rcases hn with hn | hn
    · left; rw [hn]
    · right; exact Or.inl (mem_values.2 ⟨n, hn.1, rfl⟩)
  · obtain ⟨n, hn, rfl⟩ := mem_values.1 h
    rw [addOp_arrival, mem_addOrUpdate hw.arrival_wf] at hn
    rcases hn with hn | hn
    · left; rw [hn]
    · right; exact Or.inr (Or.inl (mem_values.2 ⟨n, hn.1, rfl⟩))
  · obtain ⟨n, hn, rfl⟩ := mem_values.1 h
    rw [addOp_sendersOf] at hn
    split at hn
    · rw [mem_addOrUpdate (hw.senders_wf a)] at hn
      rcases hn with hn | hn
      · left; rw [hn]
      · right; exact Or.inr (Or.inr ⟨a, mem_values.2 ⟨n, hn.1, rfl⟩⟩)
    · right; exact Or.inr (Or.inr ⟨a, mem_values.2 ⟨n, hn, rfl⟩⟩)

theorem holds_removeOps {uk : Address → Address → Int → κ} {e : Address}
    (ops : List UserOperation) {s : set κ} (hw : set.WF uk e s) {o : UserOperation}
    (h : (ops.foldl (fun eps op => eps.removeOp uk e op) s).Holds o) : s.Holds o := by
  rcases h with h | h | ⟨a, h⟩
  · obtain ⟨n, hn, rfl⟩ := mem_values.1 h
    exact Or.inl (mem_values.2 ⟨n, ((mem_removeOps_all ops hw).1 hn).1, rfl⟩)
  · obtain ⟨n, hn, rfl⟩ := mem_values.1 h
    exact Or.inr (Or.inl (mem_values.2 ⟨n, ((mem_removeOps_arrival ops hw).1 hn).1, rfl⟩))
  · obtain ⟨n, hn, rfl⟩ := mem_values.1 h
    exact Or.inr (Or.inr ⟨a, mem_values.2 ⟨n, ((mem_removeOps_sendersOf ops hw a).1 hn).1, rfl⟩⟩)

theorem holds_of_sameView {s t : set κ} (h : set.SameView s t) {o : UserOperation}
    (ho : t.Holds o) : s.Holds o := by
  obtain ⟨h1, h2, h3⟩ := h
  unfold set.Holds at *
  rw [h1, h2]
  simpa [h3] using ho

theorem holds_run (uk : Address → Address → Int → κ) (calls : List Call) (e : Address)
    (o : UserOperation) (h : ((run uk calls).setOf e).Holds o) : Call.addOp e o ∈ calls := by
  induction calls using List.reverseRecOn with
  | nil =>
    rcases h with h | h | ⟨a, h⟩ <;> simp [run, setOf_eq, newUserOpQueue, values,
      set.sendersOf, SortedSet.New] at h
  | append_singleton cs c ih =>
    have hrun : run uk (cs ++ [c]) = step uk (run uk cs) c := by
      simp [run, List.foldl_append]
    have hw : set.WF uk e ((run uk cs).setOf e) := reachable_inv ⟨cs, rfl⟩ e
    rw [hrun] at h
    rw [List.mem_append]
    cases c with
    | addOp e' op =>
      simp only [step, setOf_AddOp] at h
      split at h
      · rename_i he
        subst he
        rcases holds_addOp hw h with h | h
        · right; rw [h]; exact List.mem_singleton.2 rfl
        · left; exact ih h
      · left; exact ih h
    | removeOps e' ops =>
      simp only [step, setOf_RemoveOps] at h
      split at h
      · rename_i he
        subst he
        left; exact ih (holds_removeOps ops hw h)
      · left; exact ih h
    | getOps e' s =>
      left; exact ih (holds_of_sameView (setOf_GetOps (run uk cs) e' s e) h)
    | next e' =>
      simp only [step, setOf_Next] at h
      left; exact ih h
    | all e' =>
      simp only [step, setOf_All] at h
      left; exact ih h

/-- C10 (isolation across entry points): for distinct entry points `e1 ≠ e2`, `AddOp(e1, op)`
and `RemoveOps(e1, ops...)` leave `GetOps(e2, s)` for every sender `s`, `Next(e2)` and
`All(e2)` unchanged; and after any sequence of calls on a new queue that never adds `op`
under `e2`, no query against `e2` returns `op`. -/
theorem C10_entry_point_isolation (getUniqueKey : Address → Address → Int → κ)
    (q : userOpQueues κ) (e1 e2 : Address) (hne : e1 ≠ e2) (op : UserOperation)
    (ops : List UserOperation) :
    ((∀ s, ((q.AddOp getUniqueKey e1 op).GetOps e2 s).2 = (q.GetOps e2 s).2)
        ∧ ((q.AddOp getUniqueKey e1 op).Next e2).2 = (q.Next e2).2
        ∧ ((q.AddOp getUniqueKey e1 op).All e2).2 = (q.All e2).2)
      ∧ ((∀ s, ((q.RemoveOps getUniqueKey e1 ops).GetOps e2 s).2 = (q.GetOps e2 s).2)
        ∧ ((q.RemoveOps getUniqueKey e1 ops).Next e2).2 = (q.Next e2).2
        ∧ ((q.RemoveOps getUniqueKey e1 ops).All e2).2 = (q.All e2).2)
      ∧ (∀ calls : List Call, Call.addOp e2 op ∉ calls →
          (∀ s, op ∉ ((run getUniqueKey calls).GetOps e2 s).2)
            ∧ op ∉ ((run getUniqueKey calls).Next e2).2
            ∧ op ∉ ((run getUniqueKey calls).All e2).2) := by
  have hne' : ¬ e2 = e1 := fun h => hne h.symm
  refine ⟨?_, ?_, ?_⟩
  · apply queries_of_sameView
    rw [setOf_AddOp, if_neg hne']
    exact sameView_refl _
  · apply queries_of_sameView
    rw [setOf_RemoveOps, if_neg hne']
    exact sameView_refl _
  · intro calls hnot
    refine ⟨fun s ho => ?_, fun ho => ?_, fun ho => ?_⟩
    · rw [GetOps_eq, List.mem_reverse] at ho
      exact hnot (holds_run getUniqueKey calls e2 op (Or.inr (Or.inr ⟨s, ho⟩)))
    · obtain ⟨n, hn, hv⟩ := mem_values.1 ((Next_perm _ e2).mem_iff.1 ho)
      exact hnot (holds_run getUniqueKey calls e2 op
        (Or.inl (mem_values.2 ⟨n, List.mem_of_mem_drop hn, hv⟩)))
    · rw [All_eq] at ho
      obtain ⟨n, hn, hv⟩ := mem_values.1 ho
      exact hnot (holds_run getUniqueKey calls e2 op
        (Or.inr (Or.inl (mem_values.2 ⟨n, List.mem_of_mem_take hn, hv⟩))))

/-- Witness for the theorem of C10: A is stored under entry point 1; adding B under
entry point 2 leaves `Next(1)` unchanged. -/
theorem C10_entry_point_isolation_witness :
    (2 : Address) ≠ 1
      ∧ (((q0.AddOp exampleKey 1 opA).AddOp exampleKey 2 opB).Next 1).2
          = ((q0.AddOp exampleKey 1 opA).Next 1).2 :=
  ⟨by decide,
    (C10_entry_point_isolation exampleKey (q0.AddOp exampleKey 1 opA) 2 1 (by decide) opB
      []).1.2.1⟩

end Claims6

section Claims7
variable {κ : Type} [LinearOrder κ]

theorem mem_foldl_addOp_all {uk : Address → Address → Int → κ} {e : Address}
    (ops : List UserOperation) (s : set κ) (hw : set.WF uk e s)
    (hnd : (ops.map (fun o => uk e o.Sender o.Nonce)).Nodup) (o : UserOperation)
    (ho : o ∈ ops) :
    ∃ n ∈ (ops.foldl (fun s o => s.addOp uk e o) s).all,
      n.key = uk e o.Sender o.Nonce ∧ n.Value = o := by
  induction ops generalizing s with
  | nil => simp at ho
  | cons x xs ih =>
    simp only [List.map_cons, List.nodup_cons, List.mem_map, not_exists, not_and] at hnd
    simp only [List.foldl_cons]
    rcases List.mem_cons.1 ho with h | h
    · subst h
      -- the node of `o` is inserted now and no later addition has its key
      have key : ∀ (ys : List UserOperation) (t : set κ), set.WF uk e t →
          (∀ y ∈ ys, uk e y.Sender y.Nonce ≠ uk e o.Sender o.Nonce) →
          (∃ n ∈ t.all, n.key = uk e o.Sender o.Nonce ∧ n.Value = o) →
          ∃ n ∈ (ys.foldl (fun s o => s.addOp uk e o) t).all,
            n.key = uk e o.Sender o.Nonce ∧ n.Value = o := by
        intro ys
        induction ys with
        | nil => intro t _ _ h; exact h
        | cons y ys ihy =>
          intro t ht hne hex
          simp only [List.foldl_cons]
          refine ihy _ (wf_addOp ht y) (fun z hz => hne z (List.mem_cons_of_mem _ hz)) ?_
          obtain ⟨n, hn, hk, hv⟩ := hex
          refine ⟨n, ?_, hk, hv⟩
          rw [addOp_all, mem_addOrUpdate ht.all_wf]
          right
          refine ⟨hn, ?_⟩
          rw [hk]
          exact fun e' => hne y (List.mem_cons_self _ _) e'.symm
      refine key xs _ (wf_addOp hw o) (fun y hy e' => hnd.1 y hy e') ?_
      refine ⟨⟨uk e o.Sender o.Nonce, BigInt.Int64 o.MaxPriorityFeePerGas, o⟩, ?_, rfl, rfl⟩
      rw [addOp_all]
      exact (mem_addOrUpdate hw.all_wf).2 (Or.inl rfl)
    · exact ih _ (wf_addOp hw x) hnd.2 h

theorem mem_GetOps_iff {uk : Address → Address → Int → κ} (hinj : KeyInjective uk)
    {q : userOpQueues κ} (hq : Reachable uk q) (e s : Address) (o : UserOperation) :
    o ∈ (q.GetOps e s).2 ↔ o ∈ q.stored e ∧ o.Sender = s := by
  have hw := reachable_inv hq e
  have hc := reachable_consistent hinj hq e
  rw [GetOps_eq, List.mem_reverse]
  constructor
  · intro ho
    obtain ⟨n, hn, rfl⟩ := mem_values.1 ho
    obtain ⟨m, hm, _, e2⟩ := hc.senders_sub_all s n hn
    exact ⟨mem_values.2 ⟨m, hm, e2⟩, hw.senders_sender s n hn⟩
  · rintro ⟨ho, rfl⟩
    obtain ⟨m, hm, rfl⟩ := mem_values.1 ho
    obtain ⟨n, hn, _, e2⟩ := hc.all_sub_senders m hm
    exact mem_values.2 ⟨n, hn, e2⟩

theorem nodup_GetOps {uk : Address → Address → Int → κ} {q : userOpQueues κ}
    (hq : Reachable uk q) (e s : Address) : (q.GetOps e s).2.Nodup := by
  have hw := reachable_inv hq e
  rw [GetOps_eq, List.nodup_reverse]
  exact values_nodup (fun o => uk e s o.Nonce) (hw.senders_wf s).2 (hw.senders_key s)

theorem nodup_stored {uk : Address → Address → Int → κ} {q : userOpQueues κ}
    (hq : Reachable uk q) (e : Address) : (q.stored e).Nodup := by
  have hw := reachable_inv hq e
  exact values_nodup (fun o => uk e o.Sender o.Nonce) hw.all_wf.2 hw.all_key

theorem reachable_foldl_AddOp {uk : Address → Address → Int → κ} (e : Address)
    (ops : List UserOperation) {q : userOpQueues κ} (hq : Reachable uk q) :
    Reachable uk (ops.foldl (fun q o => q.AddOp uk e o) q) := by
  induction ops generalizing q with
  | nil => exact hq
  | cons o os ih => exact ih (reachable_addOp hq e o)

/-- C11 (completeness of `GetOps`): with an injective key derivation, in every pool state,
`GetOps(e, s)` returns exactly the operations stored under `e` whose sender is `s`, each
once, with no limit on their number (its length is the number of stored operations of `s`);
and after adding `N` operations with pairwise distinct keys under `e`, each of them is
returned by `GetOps` for its sender. -/
theorem C11_getOps_complete (getUniqueKey : Address → Address → Int → κ)
    (hinj : KeyInjective getUniqueKey) (q : userOpQueues κ) (hq : Reachable getUniqueKey q)
    (e s : Address) :
    (∀ o, o ∈ (q.GetOps e s).2 ↔ o ∈ q.stored e ∧ o.Sender = s)
      ∧ (q.GetOps e s).2.Nodup
      ∧ (q.GetOps e s).2.length
          = ((q.stored e).filter (fun o => decide (o.Sender = s))).length
      ∧ (∀ ops : List UserOperation,
          (ops.map (fun o => getUniqueKey e o.Sender o.Nonce)).Nodup →
          ∀ o ∈ ops,
            o ∈ ((ops.foldl (fun q o => q.AddOp getUniqueKey e o) q).GetOps e o.Sender).2) := by
  refine ⟨mem_GetOps_iff hinj hq e s, nodup_GetOps hq e s, ?_, ?_⟩
  · apply List.Perm.length_eq
    rw [List.perm_ext_iff_of_nodup (nodup_GetOps hq e s) ((nodup_stored hq e).filter _)]
    intro o
    rw [mem_GetOps_iff hinj hq e s, List.mem_filter]
    simp
  · intro ops hnd o ho
    have hr := reachable_foldl_AddOp e ops hq
    rw [mem_GetOps_iff hinj hr]
    refine ⟨?_, rfl⟩
    obtain ⟨n, hn, _, hv⟩ := mem_foldl_addOp_all ops (q.setOf e) (reachable_inv hq e) hnd o ho
    unfold userOpQueues.stored
    rw [setOf_foldl_AddOp]
    exact mem_values.2 ⟨n, hn, hv⟩

/-- Witness for the theorem of C11: with A and B of sender 7 and C of sender 8 stored,
`GetOps(1, 7)` has the length of the stored operations of sender 7. -/
theorem C11_getOps_complete_witness :
    KeyInjective exampleKey
      ∧ Reachable exampleKey
          (((q0.AddOp exampleKey 1 opA).AddOp exampleKey 1 opB).AddOp exampleKey 1 opC)
      ∧ ((((q0.AddOp exampleKey 1 opA).AddOp exampleKey 1 opB).AddOp exampleKey 1 opC).GetOps
          1 7).2.length
        = (((((q0.AddOp exampleKey 1 opA).AddOp exampleKey 1 opB).AddOp exampleKey 1
            opC).stored 1).filter (fun o => decide (o.Sender = 7))).length :=
  have hr := reachable_addOp (reachable_addOp (reachable_addOp (reachable_new exampleKey)
    1 opA) 1 opB) 1 opC
  ⟨exampleKey_injective, hr,
    (C11_getOps_complete exampleKey exampleKey_injective _ hr 1 7).2.2.1⟩

end Claims7

section Claims8
variable {κ : Type} [LinearOrder κ]

theorem setOf_of_some {q : userOpQueues κ} {e : Address} {st : set κ}
    (h : q.setsByEntryPoint e = some st) : q.setOf e = st := by
  rw [setOf_eq, h]; rfl

theorem sendersOf_of_some {st : set κ} {a : Address} {sss : SortedSet κ}
    (h : st.senders a = some sss) : st.sendersOf a = sss := by
  unfold set.sendersOf; rw [h]; rfl

theorem senders_some_of_mem {st : set κ} {a : Address} {n : SortedSetNode κ}
    (h : n ∈ st.sendersOf a) : ∃ sss, st.senders a = some sss ∧ n ∈ sss := by
  unfold set.sendersOf at h
  cases hs : st.senders a with
  | none => rw [hs] at h; simp at h
  | some sss => rw [hs] at h; exact ⟨sss, rfl, h⟩

/-- C12 (consistency of the three orderings): with an injective key derivation, in every
pool state and for every entry point with a set, the by-priority ordering, the by-arrival
ordering and the per-sender orderings hold the same keys with the same operations, no
ordering holds a key twice, and every node of `senders[a]` carries an operation of sender
`a`. -/
theorem C12_triple_consistency (getUniqueKey : Address → Address → Int → κ)
    (hinj : KeyInjective getUniqueKey) (q : userOpQueues κ) (hq : Reachable getUniqueKey q)
    (e : Address) :
    ∀ st : set κ, q.setsByEntryPoint e = some st →
      (SortedSet.Sub st.all st.arrival ∧ SortedSet.Sub st.arrival st.all)
        ∧ (∀ a sss, st.senders a = some sss →
            SortedSet.Sub sss st.all ∧ (∀ n ∈ sss, n.Value.Sender = a)
              ∧ (SortedSet.keys sss).Nodup)
        ∧ (∀ m ∈ st.all, ∃ sss, st.senders m.Value.Sender = some sss
            ∧ ∃ n ∈ sss, n.key = m.key ∧ n.Value = m.Value)
        ∧ (SortedSet.keys st.all).Nodup ∧ (SortedSet.keys st.arrival).Nodup := by
  intro st hst
  have hw := reachable_inv hq e
  have hc := reachable_consistent hinj hq e
  rw [setOf_of_some hst] at hw hc
  refine ⟨⟨hw.all_sub_arrival, hw.arrival_sub_all⟩, ?_, ?_, hw.all_wf.2, hw.arrival_wf.2⟩
  · intro a sss hs
    have h1 := hc.senders_sub_all a
    have h2 := hw.senders_sender a
    have h3 := (hw.senders_wf a).2
    rw [sendersOf_of_some hs] at h1 h2 h3
    exact ⟨h1, h2, h3⟩
  · intro m hm
    obtain ⟨n, hn, e1, e2⟩ := hc.all_sub_senders m hm
    obtain ⟨sss, hs, hn'⟩ := senders_some_of_mem hn
    exact ⟨sss, hs, n, hn', e1, e2⟩

/-- Witness for the theorem of C12: the state with A, B and C stored under entry point 1. -/
theorem C12_triple_consistency_witness :
    KeyInjective exampleKey
      ∧ Reachable exampleKey
          (((q0.AddOp exampleKey 1 opA).AddOp exampleKey 1 opB).AddOp exampleKey 1 opC)
      ∧ ∀ st : set (List Int),
          (((q0.AddOp exampleKey 1 opA).AddOp exampleKey 1 opB).AddOp exampleKey 1
            opC).setsByEntryPoint 1 = some st →
          SortedSet.Sub st.all st.arrival ∧ SortedSet.Sub st.arrival st.all :=
  have hr := reachable_addOp (reachable_addOp (reachable_addOp (reachable_new exampleKey)
    1 opA) 1 opB) 1 opC
  ⟨exampleKey_injective, hr,
    fun st hst => (C12_triple_consistency exampleKey exampleKey_injective _ hr 1 st hst).1⟩

/-! ### The global count -/

theorem opCount_getEntryPointSet (q : userOpQueues κ) (e : Address) :
    (q.getEntryPointSet e).1.opCount = q.opCount := by
  unfold userOpQueues.getEntryPointSet
  cases q.setsByEntryPoint e <;> rfl

theorem opCount_AddOp (uk : Address → Address → Int → κ) (q : userOpQueues κ) (e : Address)
    (op : UserOperation) : (q.AddOp uk e op).opCount = (q.opCount + 1) % 2 ^ 64 := by
  unfold userOpQueues.AddOp
  simp only [opCount_getEntryPointSet]

theorem opCount_RemoveOps (uk : Address → Address → Int → κ) (q : userOpQueues κ)
    (e : Address) (ops : List UserOperation) :
    (q.RemoveOps uk e ops).opCount = (q.opCount + (2 ^ 64 - 1)) % 2 ^ 64 := by
  unfold userOpQueues.RemoveOps
  simp only [opCount_getEntryPointSet]

theorem opCount_GetOps (q : userOpQueues κ) (e s : Address) :
    (q.GetOps e s).1.opCount = q.opCount := by
  unfold userOpQueues.GetOps
  simp only [opCount_getEntryPointSet]

theorem opCount_Next (q : userOpQueues κ) (e : Address) :
    (q.Next e).1.opCount = q.opCount := opCount_getEntryPointSet q e

theorem opCount_All (q : userOpQueues κ) (e : Address) :
    (q.All e).1.opCount = q.opCount := opCount_getEntryPointSet q e

theorem opCount_foldl (uk : Address → Address → Int → κ) (calls : List Call)
    (q : userOpQueues κ) (hq : q.opCount < 2 ^ 64) :
    (calls.foldl (step uk) q).opCount < 2 ^ 64
      ∧ ((calls.foldl (step uk) q).opCount : Int)
          = ((q.opCount : Int) + (countAddOp calls : Int) - (countRemoveOps calls : Int))
              % 2 ^ 64 := by
  have p64 : (2 : Int) ^ 64 = 18446744073709551616 := by norm_num
  have n64 : (2 : Nat) ^ 64 = 18446744073709551616 := by norm_num
  induction calls generalizing q with
  | nil =>
    simp only [List.foldl_nil, countAddOp, countRemoveOps]
    rw [p64]
    rw [n64] at hq ⊢
    omega
  | cons c cs ih =>
    simp only [List.foldl_cons]
    cases c with
    | addOp e op =>
      have h1 : (step uk q (Call.addOp e op)).opCount = (q.opCount + 1) % 2 ^ 64 :=
        opCount_AddOp uk q e op
      have h2 : (step uk q (Call.addOp e op)).opCount < 2 ^ 64 := by
        rw [h1]; exact Nat.mod_lt _ (by norm_num)
      obtain ⟨ih1, ih2⟩ := ih _ h2
      refine ⟨ih1, ?_⟩
      rw [ih2, h1]
      simp only [countAddOp, countRemoveOps]
      rw [p64]
      rw [n64] at hq ⊢
      push_cast
      omega
    | removeOps e ops =>
      have h1 : (step uk q (Call.removeOps e ops)).opCount
          = (q.opCount + (2 ^ 64 - 1)) % 2 ^ 64 := opCount_RemoveOps uk q e ops
      have h2 : (step uk q (Call.removeOps e ops)).opCount < 2 ^ 64 := by
        rw [h1]; exact Nat.mod_lt _ (by norm_num)
      obtain ⟨ih1, ih2⟩ := ih _ h2
      refine ⟨ih1, ?_⟩
      rw [ih2, h1]
      simp only [countAddOp, countRemoveOps]
      rw [p64]
      rw [n64] at hq ⊢
      push_cast
      omega
    | getOps e s =>
      have h1 : (step uk q (Call.getOps e s)).opCount = q.opCount := opCount_GetOps q e s
      obtain ⟨ih1, ih2⟩ := ih _ (by rw [h1]; exact hq)
      refine ⟨ih1, ?_⟩
      rw [ih2, h1]
      simp only [countAddOp, countRemoveOps]
    | next e =>
      have h1 : (step uk q (Call.next e)).opCount = q.opCount := opCount_Next q e
      obtain ⟨ih1, ih2⟩ := ih _ (by rw [h1]; exact hq)
      refine ⟨ih1, ?_⟩
      rw [ih2, h1]
      simp only [countAddOp, countRemoveOps]
    | all e =>
      have h1 : (step uk q (Call.all e)).opCount = q.opCount := opCount_All q e
      obtain ⟨ih1, ih2⟩ := ih _ (by rw [h1]; exact hq)
      refine ⟨ih1, ?_⟩
      rw [ih2, h1]
      simp only [countAddOp, countRemoveOps]

/-- C13 (global count): `AddOp` adds one to the count per call, also when it replaces a
stored key, and `RemoveOps` subtracts one per call, whatever operations it is given, both
modulo `2 ^ 64`; after a sequence of calls on a new queue with `a` calls of `AddOp` and `r`
calls of `RemoveOps` the count is `(a - r) mod 2 ^ 64`. -/
theorem C13_global_count (getUniqueKey : Address → Address → Int → κ) (q : userOpQueues κ)
    (e : Address) (op : UserOperation) (ops : List UserOperation) (calls : List Call) :
    (q.AddOp getUniqueKey e op).opCount = (q.opCount + 1) % 2 ^ 64
      ∧ ((q.RemoveOps getUniqueKey e ops).opCount : Int)
          = ((q.opCount : Int) - 1) % 2 ^ 64
      ∧ ((run getUniqueKey calls : userOpQueues κ).opCount : Int)
          = ((countAddOp calls : Int) - (countRemoveOps calls : Int)) % 2 ^ 64 := by
  refine ⟨opCount_AddOp getUniqueKey q e op, ?_, ?_⟩
  · rw [opCount_RemoveOps]
    have p64 : (2 : Int) ^ 64 = 18446744073709551616 := by norm_num
    have n64 : (2 : Nat) ^ 64 = 18446744073709551616 := by norm_num
    rw [p64, n64]
    push_cast
    omega
  · have h := (opCount_foldl getUniqueKey calls (newUserOpQueue : userOpQueues κ)
      (by show 0 < 2 ^ 64; norm_num)).2
    have h0 : ((newUserOpQueue : userOpQueues κ).opCount : Int) = 0 := rfl
    rw [h0, zero_add] at h
    exact h

/-- The count after two calls of `AddOp` with A and one call of `RemoveOps` with A, B and C
is 1; the count after one `RemoveOps` on a new queue wraps around to `2 ^ 64 - 1`. -/
theorem count_example :
    (((q0.AddOp exampleKey 1 opA).AddOp exampleKey 1 opA).RemoveOps exampleKey 1
        [opA, opB, opC]).opCount = 1
      ∧ (q0.RemoveOps exampleKey 1 []).opCount = 2 ^ 64 - 1 := by
  decide

end Claims8

section NonceLoop2

theorem getElem?_swapStep (b : List UserOperation) (i j : Nat) (p : Nat) :
    (swapStep b i j)[p]? = b[p]?
      ∨ (∃ a c, b[i]? = some a ∧ b[j]? = some c ∧ a.Sender = c.Sender
          ∧ ((p = i ∧ (swapStep b i j)[p]? = some c) ∨ (p = j ∧ (swapStep b i j)[p]? = some a))) := by
  unfold swapStep
  split
  · rename_i a c hi hj
    have hil : i < b.length := (List.getElem?_eq_some.1 hi).1
    have hjl : j < b.length := (List.getElem?_eq_some.1 hj).1
    split
    · rename_i hsw
      rw [List.getElem?_set, List.getElem?_set]
      by_cases hjp : j = p
      · subst hjp
        right
        refine ⟨a, c, hi, hj, hsw.1, Or.inr ⟨rfl, ?_⟩⟩
        simp [hjl]
      · by_cases hip : i = p
        · subst hip
          right
          refine ⟨a, c, hi, hj, hsw.1, Or.inl ⟨rfl, ?_⟩⟩
          simp [hjp, hil]
        · left
          simp [hjp, hip]
    · left; rfl
  · left; rfl

theorem sender_swapStep (b : List UserOperation) (i j : Nat) (p : Nat) :
    ((swapStep b i j)[p]?).map (fun o => o.Sender) = (b[p]?).map (fun o => o.Sender) := by
  rcases getElem?_swapStep b i j p with h | ⟨a, c, hi, hj, hs, ⟨hp, h⟩ | ⟨hp, h⟩⟩
  · rw [h]
  · rw [h, hp, hi]; simp [hs]
  · rw [h, hp, hj]; simp [hs]

theorem map_sender_swapStep (b : List UserOperation) (i j : Nat) :
    (swapStep b i j).map (fun o => o.Sender) = b.map (fun o => o.Sender) := by
  apply List.ext_getElem?
  intro p
  rw [List.getElem?_map, List.getElem?_map]
  exact sender_swapStep b i j p

theorem map_sender_innerLoop_aux (js : List Nat) (b : List UserOperation) (i : Nat) :
    (js.foldl (fun b j => swapStep b i j) b).map (fun o => o.Sender)
      = b.map (fun o => o.Sender) := by
  induction js generalizing b with
  | nil => rfl
  | cons j js ih =>
    simp only [List.foldl_cons]
    rw [ih, map_sender_swapStep b i j]

theorem mem_range_succ_lt {i j n : Nat} (hj : j ∈ List.range' (i + 1) n) : i < j := by
  have := (List.mem_range'_1.1 hj).1
  omega

theorem map_sender_innerLoop (b : List UserOperation) (i : Nat) :
    (innerLoop b i).map (fun o => o.Sender) = b.map (fun o => o.Sender) :=
  map_sender_innerLoop_aux _ b i

theorem map_sender_nonceLoop_aux (is : List Nat) (b : List UserOperation) :
    (is.foldl (fun b i => innerLoop b i) b).map (fun o => o.Sender)
      = b.map (fun o => o.Sender) := by
  induction is generalizing b with
  | nil => rfl
  | cons i is ih =>
    simp only [List.foldl_cons]
    rw [ih, map_sender_innerLoop]

theorem map_sender_nonceLoop (b : List UserOperation) :
    (nonceLoop b).map (fun o => o.Sender) = b.map (fun o => o.Sender) :=
  map_sender_nonceLoop_aux _ b

theorem pairwise_nonceLoop (b : List UserOperation) :
    List.Pairwise (fun x y : UserOperation => x.Sender = y.Sender → x.Nonce ≤ y.Nonce)
      (nonceLoop b) := by
  rw [List.pairwise_iff_getElem]
  intro i j hi hj hij hs
  exact doneUpTo_nonceLoop _ i j _ _ hi hij (List.getElem?_eq_getElem hi)
    (List.getElem?_eq_getElem hj) hs

/-- C19 (the nonce correction permutes within senders): for every batch, the output of the
double loop of `Next` is a permutation of the input, has at every position an operation of
the sender that the input has there, and its operations of any one sender are in ascending
nonce order. -/
theorem C19_nonce_loop_permutes_within_senders (batch : List UserOperation) :
    (nonceLoop batch).Perm batch
      ∧ (nonceLoop batch).length = batch.length
      ∧ (∀ i : Nat, ((nonceLoop batch)[i]?).map (fun o => o.Sender)
          = (batch[i]?).map (fun o => o.Sender))
      ∧ (∀ s : Address, List.Pairwise (fun x y : UserOperation => x.Nonce ≤ y.Nonce)
          ((nonceLoop batch).filter (fun o => decide (o.Sender = s)))) := by
  refine ⟨perm_nonceLoop batch, length_nonceLoop batch, fun i => ?_, fun s => ?_⟩
  · have h := congrArg (fun l : List Address => l[i]?) (map_sender_nonceLoop batch)
    simpa only [List.getElem?_map] using h
  · rw [List.pairwise_filter]
    refine (pairwise_nonceLoop batch).imp ?_
    intro x y h hx hy
    exact h (hx.trans hy.symm)

end NonceLoop2

section Claims9
variable {κ : Type} [LinearOrder κ]

theorem swapStep_of_distinct_senders (b : List UserOperation) (i j : Nat) (hij : i < j)
    (h : List.Pairwise (fun a c : UserOperation => a.Sender ≠ c.Sender) b) :
    swapStep b i j = b := by
  unfold swapStep
  split
  · rename_i a c hi hj
    obtain ⟨hil, rfl⟩ := List.getElem?_eq_some.1 hi
    obtain ⟨hjl, rfl⟩ := List.getElem?_eq_some.1 hj
    rw [if_neg]
    intro hsw
    exact (List.pairwise_iff_getElem.1 h) i j hil hjl hij hsw.1
  · rfl

theorem innerLoop_of_distinct_senders (b : List UserOperation) (i : Nat)
    (h : List.Pairwise (fun a c : UserOperation => a.Sender ≠ c.Sender) b) :
    innerLoop b i = b := by
  unfold innerLoop
  have key : ∀ js : List Nat, (∀ j ∈ js, i < j) →
      js.foldl (fun b j => swapStep b i j) b = b := by
    intro js
    induction js with
    | nil => intro _; rfl
    | cons j js ih =>
      intro hjs
      simp only [List.foldl_cons]
      rw [swapStep_of_distinct_senders b i j (hjs j (List.mem_cons_self _ _)) h]
      exact ih (fun k hk => hjs k (List.mem_cons_of_mem _ hk))
  exact key _ (fun _ hj => mem_range_succ_lt hj)

theorem nonceLoop_of_distinct_senders (b : List UserOperation)
    (h : List.Pairwise (fun a c : UserOperation => a.Sender ≠ c.Sender) b) :
    nonceLoop b = b := by
  unfold nonceLoop
  generalize List.range b.length = is
  induction is with
  | nil => rfl
  | cons i is ih =>
    simp only [List.foldl_cons]
    rw [innerLoop_of_distinct_senders b i h]
    exact ih

theorem Next_eq_nonceLoop (q : userOpQueues κ) (e : Address) :
    (q.Next e).2 = nonceLoop (q.topByFee e) := rfl

theorem topByFee_eq (q : userOpQueues κ) (e : Address) :
    q.topByFee e
      = (values ((q.setOf e).all.drop ((q.setOf e).all.length - 10))).reverse := by
  unfold userOpQueues.topByFee
  rw [rankRange_last]
  simp [values]

theorem pairwise_topByFee {uk : Address → Address → Int → κ} {q : userOpQueues κ}
    (hq : Reachable uk q) (e : Address) :
    List.Pairwise (fun a b : UserOperation =>
      BigInt.Int64 b.MaxPriorityFeePerGas ≤ BigInt.Int64 a.MaxPriorityFeePerGas)
      (q.topByFee e) := by
  have hw := reachable_inv hq e
  rw [topByFee_eq, List.pairwise_reverse]
  unfold values
  rw [List.pairwise_map]
  have ho : List.Pairwise (fun a b : SortedSetNode κ => a.before b.score b.key)
      ((q.setOf e).all.drop ((q.setOf e).all.length - 10)) :=
    List.Pairwise.sublist (List.drop_sublist _ _) hw.all_wf.1
  refine List.Pairwise.imp_of_mem ?_ ho
  intro a b ha hb hab
  rw [← hw.all_score a (List.mem_of_mem_drop ha), ← hw.all_score b (List.mem_of_mem_drop hb)]
  exact le_of_before hab

theorem mem_topByFee {q : userOpQueues κ} {e : Address} {o : UserOperation}
    (h : o ∈ q.topByFee e) : o ∈ q.stored e := by
  rw [topByFee_eq, List.mem_reverse] at h
  obtain ⟨n, hn, rfl⟩ := mem_values.1 h
  exact mem_values.2 ⟨n, List.mem_of_mem_drop hn, rfl⟩

/-- C20 (`Next` in fee order): in a pool state whose stored fees under `e` fit in a signed
64-bit integer, when the operations of highest fee that `Next(e)` selects have pairwise
distinct senders, the nonce correction changes nothing and `Next(e)` is in non-increasing
order of `MaxPriorityFeePerGas`. -/
theorem C20_next_fee_order (getUniqueKey : Address → Address → Int → κ) (q : userOpQueues κ)
    (hq : Reachable getUniqueKey q) (e : Address)
    (hsenders : ((q.topByFee e).map (fun o => o.Sender)).Nodup)
    (hfit : ∀ o ∈ q.stored e, FitsInt64 o.MaxPriorityFeePerGas) :
    nonceLoop (q.topByFee e) = q.topByFee e
      ∧ (q.Next e).2 = q.topByFee e
      ∧ List.Pairwise (fun a b : UserOperation =>
          b.MaxPriorityFeePerGas ≤ a.MaxPriorityFeePerGas) (q.Next e).2 := by
  have hd : List.Pairwise (fun a c : UserOperation => a.Sender ≠ c.Sender) (q.topByFee e) := by
    unfold List.Nodup at hsenders
    rwa [List.pairwise_map] at hsenders
  have hid := nonceLoop_of_distinct_senders _ hd
  refine ⟨hid, by rw [Next_eq_nonceLoop, hid], ?_⟩
  rw [Next_eq_nonceLoop, hid]
  refine List.Pairwise.imp_of_mem ?_ (pairwise_topByFee hq e)
  intro a b ha hb hab
  rw [Int64_of_fits (hfit a (mem_topByFee ha)), Int64_of_fits (hfit b (mem_topByFee hb))] at hab
  exact hab

/-- Witness for the theorem of C20: A, C and D, of senders 7, 8 and 9, are stored. -/
theorem C20_next_fee_order_witness :
    Reachable exampleKey
        (((q0.AddOp exampleKey 1 opA).AddOp exampleKey 1 opC).AddOp exampleKey 1 opD)
      ∧ (((((q0.AddOp exampleKey 1 opA).AddOp exampleKey 1 opC).AddOp exampleKey 1
          opD).topByFee 1).map (fun o => o.Sender)).Nodup
      ∧ (∀ o ∈ (((q0.AddOp exampleKey 1 opA).AddOp exampleKey 1 opC).AddOp exampleKey 1
          opD).stored 1, FitsInt64 o.MaxPriorityFeePerGas)
      ∧ ((((q0.AddOp exampleKey 1 opA).AddOp exampleKey 1 opC).AddOp exampleKey 1 opD).Next
          1).2
        = (((q0.AddOp exampleKey 1 opA).AddOp exampleKey 1 opC).AddOp exampleKey 1
          opD).topByFee 1 :=
  have hr := reachable_addOp (reachable_addOp (reachable_addOp (reachable_new exampleKey)
    1 opA) 1 opC) 1 opD
  have hs : (((((q0.AddOp exampleKey 1 opA).AddOp exampleKey 1 opC).AddOp exampleKey 1
      opD).topByFee 1).map (fun o => o.Sender)).Nodup := by decide
  have hf : ∀ o ∈ (((q0.AddOp exampleKey 1 opA).AddOp exampleKey 1 opC).AddOp exampleKey 1
      opD).stored 1, FitsInt64 o.MaxPriorityFeePerGas := by
    unfold FitsInt64
    decide
  ⟨hr, hs, hf, (C20_next_fee_order exampleKey _ hr 1 hs hf).2.1⟩

end Claims9

section Claims10
variable {κ : Type} [LinearOrder κ]

theorem fixed_swapStep (b : List UserOperation) (i j p : Nat) (x : UserOperation)
    (hij : i < j) (hx : b[p]? = some x) (hu : SenderOnlyAt b p x.Sender) :
    (swapStep b i j)[p]? = some x ∧ SenderOnlyAt (swapStep b i j) p x.Sender := by
  constructor
  · rcases getElem?_swapStep b i j p with h | ⟨a, c, hi, hj, hs, ⟨hp, _⟩ | ⟨hp, _⟩⟩
    · rw [h, hx]
    · subst hp
      rw [hi] at hx
      cases hx
      have := hu j c hj hs.symm
      omega
    · subst hp
      rw [hj] at hx
      cases hx
      have := hu i a hi hs
      omega
  · intro q y hy hs
    have h := sender_swapStep b i j q
    rw [hy] at h
    cases hb : b[q]? with
    | none => rw [hb] at h; simp at h
    | some y' =>
      rw [hb] at h
      simp only [Option.map_some', Option.some.injEq] at h
      exact hu q y' hb (h.symm.trans hs)

theorem fixed_innerLoop (b : List UserOperation) (i p : Nat) (x : UserOperation)
    (hx : b[p]? = some x) (hu : SenderOnlyAt b p x.Sender) :
    (innerLoop b i)[p]? = some x ∧ SenderOnlyAt (innerLoop b i) p x.Sender := by
  unfold innerLoop
  have key : ∀ (js : List Nat) (b : List UserOperation), (∀ j ∈ js, i < j) →
      b[p]? = some x → SenderOnlyAt b p x.Sender →
      (js.foldl (fun b j => swapStep b i j) b)[p]? = some x
        ∧ SenderOnlyAt (js.foldl (fun b j => swapStep b i j) b) p x.Sender := by
    intro js
    induction js with
    | nil => intro b _ h1 h2; exact ⟨h1, h2⟩
    | cons j js ih =>
      intro b hjs h1 h2
      simp only [List.foldl_cons]
      obtain ⟨h1', h2'⟩ := fixed_swapStep b i j p x (hjs j (List.mem_cons_self _ _)) h1 h2
      exact ih _ (fun k hk => hjs k (List.mem_cons_of_mem _ hk)) h1' h2'
  exact key _ b (fun _ hj => mem_range_succ_lt hj) hx hu

theorem fixed_nonceLoop (b : List UserOperation) (p : Nat) (x : UserOperation)
    (hx : b[p]? = some x) (hu : SenderOnlyAt b p x.Sender) : (nonceLoop b)[p]? = some x := by
  unfold nonceLoop
  have key : ∀ (is : List Nat) (b : List UserOperation),
      b[p]? = some x → SenderOnlyAt b p x.Sender →
      (is.foldl (fun b i => innerLoop b i) b)[p]? = some x := by
    intro is
    induction is with
    | nil => intro b h1 _; exact h1
    | cons i is ih =>
      intro b h1 h2
      simp only [List.foldl_cons]
      obtain ⟨h1', h2'⟩ := fixed_innerLoop b i p x h1 h2
      exact ih _ h1' h2'
  exact key _ b hx hu

theorem getElem?_inj_of_nodup {α : Type} {l : List α} (h : l.Nodup) {i j : Nat} {a : α}
    (hi : l[i]? = some a) (hj : l[j]? = some a) : i = j := by
  obtain ⟨hil, hia⟩ := List.getElem?_eq_some.1 hi
  obtain ⟨hjl, hja⟩ := List.getElem?_eq_some.1 hj
  exact (@List.Nodup.getElem_inj_iff _ l h i hil j hjl).1 (hia.trans hja.symm)

theorem nodup_topByFee {uk : Address → Address → Int → κ} {q : userOpQueues κ}
    (hq : Reachable uk q) (e : Address) : (q.topByFee e).Nodup := by
  rw [topByFee_eq, List.nodup_reverse]
  exact List.Nodup.sublist (List.Sublist.map _ (List.drop_sublist _ _)) (nodup_stored hq e)

theorem topByFee_of_small {q : userOpQueues κ} {e : Address} (h : (q.stored e).length ≤ 10)
    {o : UserOperation} (ho : o ∈ q.stored e) : o ∈ q.topByFee e := by
  have hl : (q.setOf e).all.length - 10 = 0 := by
    simp only [userOpQueues.stored, values, List.length_map] at h
    omega
  rw [topByFee_eq, hl, List.drop_zero, List.mem_reverse]
  exact ho

/-- With the fee `2 ^ 63` and the fee 7 of another sender stored, `Next` returns the fee 7
first. -/
theorem next_bigFee_example :
    (((q0.AddOp exampleKey 1 opBigFee).AddOp exampleKey 1 opC).Next 1).2 = [opC, opBigFee] := by
  decide

/-- With fees 10 (sender 7, nonce 5), 5 (sender 8) and 1 (sender 7, nonce 1) stored, `Next`
returns the fee 5 before the fee 10. -/
theorem next_correction_example :
    ((((q0.AddOp exampleKey 1 opHi).AddOp exampleKey 1 opMid).AddOp exampleKey 1 opLo).Next
      1).2 = [opLo, opMid, opHi] := by
  decide

/-- With the nonces 1, 2 and `2 ^ 63` of sender 7 stored, `GetOps` returns 2, 1, `2 ^ 63`. -/
theorem getOps_bigNonce_example :
    ((((q0.AddOp exampleKey 1 opA).AddOp exampleKey 1 opB).AddOp exampleKey 1
      opBigNonce).GetOps 1 7).2 = [opB, opA, opBigNonce] := by
  decide

/-- C14, as stated, fails in two ways.  Ranking uses `Int64()` of the fee and of the nonce:
with the fee `2 ^ 63` (score `-2 ^ 63`) and the fee 7 of another sender stored, `Next` returns
the fee 7 first; with the nonces 1, 2 and `2 ^ 63` of one sender stored, `GetOps` returns
them as 2, 1, `2 ^ 63`.  And the nonce correction moves operations: with fees 10 (sender 7,
nonce 5), 5 (sender 8) and 1 (sender 7, nonce 1) stored, `Next` returns the fee 5 before the
fee 10. -/
theorem C14_counterexample :
    (((q0.AddOp exampleKey 1 opBigFee).AddOp exampleKey 1 opC).Next 1).2 = [opC, opBigFee]
      ∧ opBigFee.Sender ≠ opC.Sender
      ∧ opC.MaxPriorityFeePerGas < opBigFee.MaxPriorityFeePerGas
      ∧ ¬ Precedes (((q0.AddOp exampleKey 1 opBigFee).AddOp exampleKey 1 opC).Next 1).2
          opBigFee opC
      ∧ ((((q0.AddOp exampleKey 1 opHi).AddOp exampleKey 1 opMid).AddOp exampleKey 1
          opLo).Next 1).2 = [opLo, opMid, opHi]
      ∧ opHi.Sender ≠ opMid.Sender
      ∧ opMid.MaxPriorityFeePerGas < opHi.MaxPriorityFeePerGas
      ∧ ¬ Precedes ((((q0.AddOp exampleKey 1 opHi).AddOp exampleKey 1 opMid).AddOp exampleKey 1
          opLo).Next 1).2 opHi opMid
      ∧ ((((q0.AddOp exampleKey 1 opA).AddOp exampleKey 1 opB).AddOp exampleKey 1
          opBigNonce).GetOps 1 7).2 = [opB, opA, opBigNonce] := by
  have h1 := next_bigFee_example
  have h2 := next_correction_example
  refine ⟨h1, by decide, by decide, ?_, h2, by decide, by decide, ?_,
    getOps_bigNonce_example⟩
  · rw [h1]
    rintro ⟨i, j, hij, hi, hj⟩
    match i, j, hij with
    | 0, _, _ => exact absurd hi (by decide)
    | 1, 0, hij => omega
    | 1, 1, hij => omega
    | 1, j + 2, _ => simp at hj
    | i + 2, _, _ => simp at hi
  · rw [h2]
    rintro ⟨i, j, hij, hi, hj⟩
    match i, j, hij with
    | 0, _, _ => exact absurd hi (by decide)
    | 1, _, _ => exact absurd hi (by decide)
    | 2, 0, hij => omega
    | 2, 1, hij => omega
    | 2, 2, hij => omega
    | 2, j + 3, _ => simp at hj
    | i + 3, _, _ => simp at hi

/-- C14, amended: in every pool state, for operations `a` and `b` stored under an entry
point `e` holding at most 10 operations, each the only stored operation of its sender, with
fees that fit in a signed 64-bit integer, a greater fee of `a` makes `a` precede `b` in
`Next(e)`; and `GetOps(e, s)` is in strictly descending order of the exact nonces for the
nonces that fit in a signed 64-bit integer. -/
theorem C14_ranking_within_int64 (getUniqueKey : Address → Address → Int → κ)
    (q : userOpQueues κ) (hq : Reachable getUniqueKey q) (e : Address) :
    (∀ a b : UserOperation, (q.stored e).length ≤ 10 → a ∈ q.stored e → b ∈ q.stored e →
        (∀ o ∈ q.stored e, o.Sender = a.Sender → o = a) →
        (∀ o ∈ q.stored e, o.Sender = b.Sender → o = b) →
        FitsInt64 a.MaxPriorityFeePerGas → FitsInt64 b.MaxPriorityFeePerGas →
        b.MaxPriorityFeePerGas < a.MaxPriorityFeePerGas → Precedes (q.Next e).2 a b)
      ∧ (∀ s : Address, List.Pairwise (fun x y : UserOperation =>
          FitsInt64 x.Nonce → FitsInt64 y.Nonce → y.Nonce < x.Nonce) (q.GetOps e s).2) := by
  have hw := reachable_inv hq e
  constructor
  · intro a b hlen ha hb hua hub hfa hfb hlt
    have hnd := nodup_topByFee hq e
    obtain ⟨i, hi⟩ := List.getElem?_of_mem (topByFee_of_small hlen ha)
    obtain ⟨j, hj⟩ := List.getElem?_of_mem (topByFee_of_small hlen hb)
    have hil := (List.getElem?_eq_some.1 hi).1
    have hjl := (List.getElem?_eq_some.1 hj).1
    have hpw := List.pairwise_iff_getElem.1 (pairwise_topByFee hq e)
    have hij : i < j := by
      rcases Nat.lt_trichotomy i j with h | h | h
      · exact h
      · subst h
        rw [hi] at hj
        cases hj
        exact absurd hlt (lt_irrefl _)
      · have := hpw j i hjl hil h
        rw [(List.getElem?_eq_some.1 hi).2, (List.getElem?_eq_some.1 hj).2,
          Int64_of_fits hfa, Int64_of_fits hfb] at this
        omega
    have only : ∀ (x : UserOperation) (p : Nat), (q.topByFee e)[p]? = some x →
        (∀ o ∈ q.stored e, o.Sender = x.Sender → o = x) →
        SenderOnlyAt (q.topByFee e) p x.Sender := by
      intro x p hp hu r y hy hs
      have hyx : y = x := hu y (mem_topByFee (List.getElem?_mem hy)) hs
      rw [hyx] at hy
      exact getElem?_inj_of_nodup hnd hy hp
    refine ⟨i, j, hij, ?_, ?_⟩
    · rw [Next_eq_nonceLoop]
      exact fixed_nonceLoop _ i a hi (only a i hi hua)
    · rw [Next_eq_nonceLoop]
      exact fixed_nonceLoop _ j b hj (only b j hj hub)
  · intro s
    rw [GetOps_eq, List.pairwise_reverse]
    unfold values
    rw [List.pairwise_map]
    refine List.Pairwise.imp_of_mem ?_ (hw.senders_wf s).1
    intro x y hx hy hxy fy fx
    have hsx := hw.senders_score s x hx
    have hsy := hw.senders_score s y hy
    rw [Int64_of_fits fx] at hsx
    rw [Int64_of_fits fy] at hsy
    rcases hxy with h | ⟨h1, h2⟩
    · rw [hsx, hsy] at h; exact h
    · exfalso
      rw [hsx, hsy] at h1
      rw [hw.senders_key s x hx, hw.senders_key s y hy, h1] at h2
      exact lt_irrefl _ h2

/-- Witness for the theorem of C14: with A (sender 7, fee 5), C (sender 8, fee 7) and D
(sender 9, fee 3) stored, C precedes A in `Next`. -/
theorem C14_ranking_within_int64_witness :
    Reachable exampleKey
        (((q0.AddOp exampleKey 1 opA).AddOp exampleKey 1 opC).AddOp exampleKey 1 opD)
      ∧ Precedes ((((q0.AddOp exampleKey 1 opA).AddOp exampleKey 1 opC).AddOp exampleKey 1
          opD).Next 1).2 opC opA :=
  have hr := reachable_addOp (reachable_addOp (reachable_addOp (reachable_new exampleKey)
    1 opA) 1 opC) 1 opD
  ⟨hr, (C14_ranking_within_int64 exampleKey _ hr 1).1 opC opA (by decide) (by decide)
    (by decide) (by decide) (by decide) (by unfold FitsInt64; decide)
    (by unfold FitsInt64; decide) (by decide)⟩

end Claims10

section Claims11
variable {κ : Type} [LinearOrder κ]

theorem getOps_nil_of_no_sender {uk : Address → Address → Int → κ} (hinj : KeyInjective uk)
    {q : userOpQueues κ} (hq : Reachable uk q) (e s : Address)
    (h : ∀ o ∈ q.stored e, o.Sender ≠ s) : (q.GetOps e s).2 = [] := by
  rw [List.eq_nil_iff_forall_not_mem]
  intro o ho
  exact h o ((mem_GetOps_iff hinj hq e s o).1 ho).1 ((mem_GetOps_iff hinj hq e s o).1 ho).2

theorem getOps_nil_of_sendersOf_nil {q : userOpQueues κ} {e s : Address}
    (h : (q.setOf e).sendersOf s = []) : (q.GetOps e s).2 = [] := by
  rw [GetOps_eq, h]; rfl

/-- C15 (queries on unseen keys): in every pool state, `Next(e)`, `All(e)` and
`GetOps(e, s)` return the empty sequence for an entry point `e` that has no set yet,
`Next(e)` and `All(e)` return it for an entry point that holds no operation, `GetOps(e, s)`
returns it for a sender that has no ordering yet under `e`, and, the key derivation being
injective, `GetOps(e, s)` returns it for every sender `s` with no operation stored under
`e` (so for every sender of an emptied entry point). -/
theorem C15_unseen_queries_empty (getUniqueKey : Address → Address → Int → κ)
    (q : userOpQueues κ) (hq : Reachable getUniqueKey q) (e : Address) :
    (q.setsByEntryPoint e = none →
        (q.Next e).2 = [] ∧ (q.All e).2 = [] ∧ ∀ s, (q.GetOps e s).2 = [])
      ∧ (q.stored e = [] → (q.Next e).2 = [] ∧ (q.All e).2 = [])
      ∧ (∀ (st : set κ) (s : Address), q.setsByEntryPoint e = some st → st.senders s = none →
          (q.GetOps e s).2 = [])
      ∧ (KeyInjective getUniqueKey →
          ∀ s, (∀ o ∈ q.stored e, o.Sender ≠ s) → (q.GetOps e s).2 = []) := by
  have hw := reachable_inv hq e
  have empty : q.stored e = [] → (q.Next e).2 = [] ∧ (q.All e).2 = [] := by
    intro h
    have hall : (q.setOf e).all = [] := by
      simpa [userOpQueues.stored, values] using h
    have harr : (q.setOf e).arrival = [] := by
      cases h' : (q.setOf e).arrival with
      | nil => rfl
      | cons n ns =>
        obtain ⟨m, hm, _⟩ := hw.arrival_sub_all n (by rw [h']; exact List.mem_cons_self _ _)
        rw [hall] at hm
        simp at hm
    constructor
    · have hp := Next_perm q e
      rw [hall] at hp
      simpa [values] using hp
    · rw [All_eq, harr]; rfl
  refine ⟨fun hnone => ?_, empty, fun st s hst hs => ?_,
    fun hinj s => getOps_nil_of_no_sender hinj hq e s⟩
  · have hset : q.setOf e
        = { all := SortedSet.New, arrival := SortedSet.New, senders := fun _ => none } := by
      rw [setOf_eq, hnone]; rfl
    have hst : q.stored e = [] := by
      unfold userOpQueues.stored
      rw [hset]; rfl
    refine ⟨(empty hst).1, (empty hst).2, fun s => ?_⟩
    apply getOps_nil_of_sendersOf_nil
    rw [hset]; rfl
  · apply getOps_nil_of_sendersOf_nil
    rw [setOf_of_some hst]
    unfold set.sendersOf
    rw [hs]; rfl

/-- Witness for the theorem of C15: with A stored under entry point 1, entry point 2 has no
set, and sender 8 has no operation under entry point 1. -/
theorem C15_unseen_queries_empty_witness :
    Reachable exampleKey (q0.AddOp exampleKey 1 opA)
      ∧ ((q0.AddOp exampleKey 1 opA).Next 2).2 = []
      ∧ ((q0.AddOp exampleKey 1 opA).GetOps 1 8).2 = [] :=
  have hr := reachable_addOp (reachable_new exampleKey) 1 opA
  ⟨hr, ((C15_unseen_queries_empty exampleKey _ hr 2).1 rfl).1,
    (C15_unseen_queries_empty exampleKey _ hr 1).2.2.2 exampleKey_injective 8 (by decide)⟩

/-! ### Queries do not consume -/

theorem sameView_symm {s t : set κ} (h : set.SameView s t) : set.SameView t s :=
  ⟨h.1.symm, h.2.1.symm, fun a => (h.2.2 a).symm⟩

theorem sameView_trans {s t u : set κ} (h : set.SameView s t) (h' : set.SameView t u) :
    set.SameView s u :=
  ⟨h.1.trans h'.1, h.2.1.trans h'.2.1, fun a => (h.2.2 a).trans (h'.2.2 a)⟩

theorem sameView_addOp (uk : Address → Address → Int → κ) (e : Address) (op : UserOperation)
    {s t : set κ} (h : set.SameView s t) :
    set.SameView (s.addOp uk e op) (t.addOp uk e op) := by
  have hall : (s.addOp uk e op).all = (t.addOp uk e op).all := by
    rw [addOp_all, addOp_all, h.1]
  refine ⟨hall, ?_, fun a => ?_⟩
  · rw [addOp_arrival, addOp_arrival, h.2.1, hall]
  · rw [addOp_sendersOf, addOp_sendersOf, h.2.2 a]

theorem sameView_removeOp (uk : Address → Address → Int → κ) (e : Address)
    (op : UserOperation) {s t : set κ} (h : set.SameView s t) :
    set.SameView (s.removeOp uk e op) (t.removeOp uk e op) := by
  refine ⟨?_, ?_, fun a => ?_⟩
  · rw [removeOp_all, removeOp_all, h.1]
  · rw [removeOp_arrival, removeOp_arrival, h.2.1]
  · rw [removeOp_sendersOf, removeOp_sendersOf, h.2.2 a]

theorem sameView_removeOps (uk : Address → Address → Int → κ) (e : Address)
    (ops : List UserOperation) {s t : set κ} (h : set.SameView s t) :
    set.SameView (ops.foldl (fun eps op => eps.removeOp uk e op) s)
      (ops.foldl (fun eps op => eps.removeOp uk e op) t) := by
  induction ops generalizing s t with
  | nil => exact h
  | cons op ops ih => exact ih (sameView_removeOp uk e op h)

theorem queue_sameView_step (uk : Address → Address → Int → κ) {q q' : userOpQueues κ}
    (h : q.SameView q') (c : Call) : (step uk q c).SameView (step uk q' c) := by
  obtain ⟨hc, hv⟩ := h
  cases c with
  | addOp e op =>
    refine ⟨?_, fun e' => ?_⟩
    · simp only [step, opCount_AddOp, hc]
    · simp only [step, setOf_AddOp]
      split
      · exact sameView_addOp uk e op (hv e)
      · exact hv e'
  | removeOps e ops =>
    refine ⟨?_, fun e' => ?_⟩
    · simp only [step, opCount_RemoveOps, hc]
    · simp only [step, setOf_RemoveOps]
      split
      · exact sameView_removeOps uk e ops (hv e)
      · exact hv e'
  | getOps e s =>
    refine ⟨?_, fun e' => ?_⟩
    · simp only [step, opCount_GetOps, hc]
    · exact sameView_trans (sameView_symm (setOf_GetOps q e s e'))
        (sameView_trans (hv e') (setOf_GetOps q' e s e'))
  | next e =>
    refine ⟨?_, fun e' => ?_⟩
    · simp only [step, opCount_Next, hc]
    · simp only [step, setOf_Next]; exact hv e'
  | all e =>
    refine ⟨?_, fun e' => ?_⟩
    · simp only [step, opCount_All, hc]
    · simp only [step, setOf_All]; exact hv e'

theorem queue_sameView_foldl (uk : Address → Address → Int → κ) (calls : List Call)
    {q q' : userOpQueues κ} (h : q.SameView q') :
    (calls.foldl (step uk) q).SameView (calls.foldl (step uk) q') := by
  induction calls generalizing q q' with
  | nil => exact h
  | cons c cs ih => exact ih (queue_sameView_step uk h c)

/-- C16 (queries do not consume): for every queue, a call of `GetOps`, `Next` or `All`, for
any entry point and sender, leaves the count, the by-priority and by-arrival orderings of
every entry point and the content of every per-sender ordering as they were (it can only
create an empty set or an empty sender ordering); and two queues that agree in this way give
the same `GetOps`, `Next` and `All` results and the same count after every further sequence
of calls. -/
theorem C16_queries_do_not_consume (getUniqueKey : Address → Address → Int → κ)
    (q : userOpQueues κ) (e s : Address) :
    q.SameView (q.GetOps e s).1 ∧ q.SameView (q.Next e).1 ∧ q.SameView (q.All e).1
      ∧ (∀ q' : userOpQueues κ, q.SameView q' → ∀ (calls : List Call) (e' : Address),
          (calls.foldl (step getUniqueKey) q').opCount
              = (calls.foldl (step getUniqueKey) q).opCount
            ∧ (∀ s', ((calls.foldl (step getUniqueKey) q').GetOps e' s').2
                = ((calls.foldl (step getUniqueKey) q).GetOps e' s').2)
            ∧ ((calls.foldl (step getUniqueKey) q').Next e').2
                = ((calls.foldl (step getUniqueKey) q).Next e').2
            ∧ ((calls.foldl (step getUniqueKey) q').All e').2
                = ((calls.foldl (step getUniqueKey) q).All e').2) := by
  refine ⟨⟨(opCount_GetOps q e s).symm, fun e' => setOf_GetOps q e s e'⟩,
    ⟨(opCount_Next q e).symm, fun e' => by rw [setOf_Next]; exact sameView_refl _⟩,
    ⟨(opCount_All q e).symm, fun e' => by rw [setOf_All]; exact sameView_refl _⟩, ?_⟩
  intro q' h calls e'
  obtain ⟨hc, hv⟩ := queue_sameView_foldl getUniqueKey calls h
  exact ⟨hc.symm, queries_of_sameView (sameView_symm (hv e'))⟩

/-- C18 fails on the code: A and B are added (arrival scores 1 and 2), then A is replaced by
an operation with the same sender and nonce.  The replacement gets the unchanged count 2 as
its score and ties with B; the tie is broken by key order, and the key of A is smaller, so
`All` returns the replacement before B. -/
theorem C18_replacement_not_last :
    ((((q0.AddOp exampleKey 1 opA).AddOp exampleKey 1 opB).AddOp exampleKey 1
      ⟨7, 1, 8, 3⟩).All 1).2 = [⟨7, 1, 8, 3⟩, opB] := by
  decide

end Claims11

end Mempool
